import Mathlib

/-!
Verification development for the session discovery and status inference
engine (Rust sources under `src-tauri/src`).  The Rust code is shallowly
embedded: pure functions become Lean functions, machine floats used only
for threshold comparisons become rationals, fallible operations become
`Option`, and the probed filesystem becomes an explicit `String → Bool`
oracle.
-/

/-- `SessionStatus` from `session/model.rs`. -/
inductive SessionStatus : Type
  | Waiting
  | Processing
  | Thinking
  | Compacting
  | Idle
  deriving DecidableEq, Repr

/-- `status_sort_priority` from `session/status.rs` (lines 123-131). -/
def status_sort_priority (status : SessionStatus) : Nat :=
  match status with
  | .Thinking => 0
  | .Processing => 0
  | .Compacting => 0
  | .Waiting => 1
  | .Idle => 2

/-- `determine_status` from `session/status.rs` (lines 142-195).
File age and CPU usage are `f32` in the source, used only in exact
comparisons against the literals `3.0`, `8.0` and `5.0`; they are
embedded as rationals.  The third argument is the source's unused
`_has_tool_result` parameter. -/
def determine_status (lastMsgType : Option String) (hasToolUse : Bool)
    (_hasToolResult : Bool) (isLocalCommand : Bool) (isInterrupted : Bool)
    (fileAgeSecs : Option ℚ) (cpuUsage : ℚ) : SessionStatus :=
  let fileRecentlyModified : Bool :=
    match fileAgeSecs with
    | some age => decide (age < 3)
    | none => false
  let fileActiveForTool : Bool :=
    match fileAgeSecs with
    | some age => decide (age < 8)
    | none => false
  let cpuActive : Bool := decide (cpuUsage > 5)
  match lastMsgType with
  | some t =>
    if t = "assistant" then
      if hasToolUse then
        if fileActiveForTool || cpuActive then .Processing else .Waiting
      else if fileRecentlyModified then .Processing else .Idle
    else if t = "user" then
      if isLocalCommand || isInterrupted then .Idle else .Thinking
    else if fileRecentlyModified then .Processing else .Idle
  | none => if fileRecentlyModified then .Processing else .Idle

/-- The subagent override applied in `find_session_for_process`
(`session/parser.rs` lines 503-516): a session with active subagents
whose inferred status is `Waiting` or `Idle` is forced to `Processing`. -/
def apply_subagent_override (activeSubagentCount : Nat) (status : SessionStatus) :
    SessionStatus :=
  if 0 < activeSubagentCount ∧ (status = .Waiting ∨ status = .Idle) then
    .Processing
  else
    status

/-- A process-table entry as consulted by `is_orphaned_process`
(`process/claude.rs`): its pid and the pid of its parent, when it has one. -/
structure SysProcess : Type where
  pid : Nat
  parent : Option Nat
  deriving DecidableEq, Repr

/-- `system.process(pid)` lookup: first table entry with the given pid. -/
def sysLookup (table : List SysProcess) (pid : Nat) : Option SysProcess :=
  table.find? (fun p => p.pid = pid)

/-- `is_orphaned_process` from `process/claude.rs` (lines 27-52). -/
def is_orphaned_process (table : List SysProcess) (process : SysProcess) : Bool :=
  match process.parent with
  | none => true
  | some parentPid =>
    if parentPid = 1 then true
    else
      match sysLookup table parentPid with
      | some parentProcess =>
        match parentProcess.parent with
        | some grandparentPid => decide (grandparentPid = 1)
        | none => false
      | none => true

/-- `CacheEntry<T>` from `session/git.rs`: a value plus its insertion
instant (instants are embedded as rationals). -/
structure CacheEntry (α : Type) : Type where
  value : α
  insertedAt : ℚ

/-- `TtlCache<T>` from `session/git.rs` (lines 37-78): an association map
plus an optional time-to-live (`none` = permanent). -/
structure TtlCache (α : Type) : Type where
  map : List (String × CacheEntry α)
  ttl : Option ℚ

/-- `HashMap::get`: first entry with the given key. -/
def TtlCache.lookupEntry {α : Type} (c : TtlCache α) (key : String) :
    Option (CacheEntry α) :=
  (c.map.find? (fun kv => kv.1 = key)).map (·.2)

/-- `TtlCache::get` at explicit time `now`: the stored value unless the
cache has a ttl and the entry's elapsed time exceeds it. -/
def TtlCache.get {α : Type} (c : TtlCache α) (now : ℚ) (key : String) : Option α :=
  match c.lookupEntry key with
  | none => none
  | some entry =>
    match c.ttl with
    | some ttl => if now - entry.insertedAt > ttl then none else some entry.value
    | none => some entry.value

/-- `TtlCache::insert` at explicit time `now` (`HashMap::insert` replaces
any earlier entry with the same key). -/
def TtlCache.insert {α : Type} (c : TtlCache α) (now : ℚ) (key : String)
    (value : α) : TtlCache α :=
  { c with map := (key, ⟨value, now⟩) :: c.map.filter (fun kv => kv.1 ≠ key) }

/-- `TtlCache::retain_keys`: drop every entry whose key is not active. -/
def TtlCache.retainKeys {α : Type} (c : TtlCache α) (activeKeys : List String) :
    TtlCache α :=
  { c with map := c.map.filter (fun kv => activeKeys.contains kv.1) }

/-- One item of a JSON content array, as probed by the helpers in
`session/status.rs`: its `type` field when present and a string, and its
`text` field when present and a string. -/
structure Block : Type where
  btype : Option String
  btext : Option String
  deriving DecidableEq, Repr

/-- The `serde_json::Value` shapes `message.content` takes: a string, an
array of blocks, or anything else. -/
inductive ContentVal : Type
  | vstr (s : String)
  | varr (blocks : List Block)
  | vother
  deriving DecidableEq, Repr

/-- `is_thinking_only` from `session/status.rs` (lines 6-18). -/
def is_thinking_only (content : ContentVal) : Bool :=
  match content with
  | .varr arr => !arr.isEmpty && arr.all (fun item => item.btype = some "thinking")
  | _ => false

/-- `has_tool_use` from `session/status.rs` (lines 21-32). -/
def has_tool_use (content : ContentVal) : Bool :=
  match content with
  | .varr arr => arr.any (fun item => item.btype = some "tool_use")
  | _ => false

/-- `has_tool_result` from `session/status.rs` (lines 35-46). -/
def has_tool_result (content : ContentVal) : Bool :=
  match content with
  | .varr arr => arr.any (fun item => item.btype = some "tool_result")
  | _ => false

/-- `extract_text_content` from `session/status.rs` (lines 49-60). -/
def extract_text_content (content : ContentVal) : String :=
  match content with
  | .vstr s => s
  | .varr arr => (((arr.find? (fun v => v.btext.isSome)).bind (·.btext)).getD "")
  | .vother => ""

/-- `str::starts_with` over character lists. -/
def startsWithChars : List Char → List Char → Bool
  | [], _ => true
  | _ :: _, [] => false
  | p :: ps, c :: cs => p = c && startsWithChars ps cs

/-- `str::contains` (substring search) over character lists. -/
def containsChars (pat : List Char) (l : List Char) : Bool :=
  startsWithChars pat l ||
    match l with
    | [] => false
    | _ :: t => containsChars pat t

/-- `split(pat).next()`: the characters before the first occurrence of
`pat` (the whole list when `pat` does not occur). -/
def beforeFirstChars (pat : List Char) : List Char → List Char
  | [] => []
  | c :: t => if startsWithChars pat (c :: t) then [] else c :: beforeFirstChars pat t

/-- `str::trim` over character lists. -/
def trimChars (l : List Char) : List Char :=
  ((l.dropWhile Char.isWhitespace).reverse.dropWhile Char.isWhitespace).reverse

/-- `is_interrupted_request` from `session/status.rs` (lines 63-66). -/
def is_interrupted_request (content : ContentVal) : Bool :=
  containsChars "[Request interrupted by user]".data (extract_text_content content).data

/-- The fixed local-command vocabulary of `is_local_slash_command`
(`session/status.rs` lines 96-114). -/
def localCommands : List String :=
  ["/clear", "/compact", "/help", "/config", "/cost", "/doctor", "/init",
   "/login", "/logout", "/memory", "/model", "/permissions", "/pr-comments",
   "/review", "/status", "/terminal-setup", "/vim"]

/-- `is_local_slash_command` from `session/status.rs` (lines 70-119). -/
def is_local_slash_command (content : ContentVal) : Bool :=
  let trimmed := trimChars (extract_text_content content).data
  if startsWithChars "<local-command-stdout>".data trimmed
      || startsWithChars "<local-command-caveat>".data trimmed then
    true
  else
    let commandText :=
      if startsWithChars "<command-name>".data trimmed then
        trimChars (beforeFirstChars "</command-name>".data
          (trimmed.drop "<command-name>".length))
      else trimmed
    localCommands.any (fun cmd =>
      commandText = cmd.data || startsWithChars (cmd.data ++ [' ']) commandText)

/-- `TokenUsage` from `session/model.rs`. -/
structure TokenUsage : Type where
  input_tokens : Option Nat
  cache_creation_input_tokens : Option Nat
  cache_read_input_tokens : Option Nat
  deriving DecidableEq, Repr

/-- `MessageContent` from `session/model.rs`. -/
structure MessageContent : Type where
  role : Option String
  content : Option ContentVal
  usage : Option TokenUsage
  deriving DecidableEq, Repr

/-- `JsonlMessage` from `session/model.rs`: one parsed transcript line. -/
structure JsonlMessage : Type where
  sessionId : Option String
  gitBranch : Option String
  timestamp : Option String
  msgType : Option String
  subtype : Option String
  isCompactSummary : Option Bool
  message : Option MessageContent
  deriving DecidableEq, Repr

/-- The mutable locals of the scanning loop in `parse_session_file`
(`session/parser.rs` lines 596-689). -/
structure ScanState : Type where
  sessionId : Option String
  gitBranch : Option String
  lastTimestamp : Option String
  lastUsage : Option TokenUsage
  lastMsgType : Option String
  lastRole : Option String
  lastHasToolUse : Bool
  lastHasToolResult : Bool
  lastIsLocalCommand : Bool
  lastIsInterrupted : Bool
  foundStatusInfo : Bool
  isCompacting : Bool
  deriving DecidableEq, Repr

/-- The loop locals before any line is read. -/
def initScanState : ScanState :=
  ⟨none, none, none, none, none, none, false, false, false, false, false, false⟩

/-- `ContentVal` counts as content for status purposes exactly when it is
a non-empty string or a non-empty array (`session/parser.rs` lines 659-663). -/
def contentValHasContent (c : ContentVal) : Bool :=
  match c with
  | .vstr s => s ≠ ""
  | .varr arr => !arr.isEmpty
  | .vother => false

/-- The body of the scanning loop of `parse_session_file` for one parsed
line (`session/parser.rs` lines 619-688): first-seen metadata, then the
compaction check, then the hunt for the most recent content-bearing
message. -/
def scanStep (st : ScanState) (msg : JsonlMessage) : ScanState :=
  let st := if st.sessionId = none then { st with sessionId := msg.sessionId } else st
  let st := if st.gitBranch = none then { st with gitBranch := msg.gitBranch } else st
  let st :=
    if st.lastTimestamp = none then { st with lastTimestamp := msg.timestamp } else st
  let st :=
    if st.lastUsage = none then { st with lastUsage := msg.message.bind (·.usage) }
    else st
  let st :=
    if !st.foundStatusInfo && !st.isCompacting then
      if msg.isCompactSummary = some true then st
      else if msg.subtype = some "compact_boundary" then { st with isCompacting := true }
      else st
    else st
  if !st.foundStatusInfo then
    match msg.message with
    | some content =>
      match content.content with
      | some c =>
        if contentValHasContent c && !is_thinking_only c then
          { st with
            lastMsgType := msg.msgType
            lastRole := content.role
            lastHasToolUse := has_tool_use c
            lastHasToolResult := has_tool_result c
            lastIsLocalCommand := is_local_slash_command c
            lastIsInterrupted := is_interrupted_request c
            foundStatusInfo := true }
        else st
      | none => st
    | none => st
  else st

/-- The scanning loop with its early exit (`session/parser.rs` lines
618-689): lines are processed newest first, stopping once a session id,
status info and usage have all been seen. -/
def scanLoop : ScanState → List JsonlMessage → ScanState
  | st, [] => st
  | st, msg :: rest =>
    let st' := scanStep st msg
    if st'.sessionId.isSome && st'.foundStatusInfo && st'.lastUsage.isSome then st'
    else scanLoop st' rest

/-- The status produced by `parse_session_file` (`session/parser.rs` lines
613-732) from the parsed transcript lines in newest-to-oldest order: the
scan runs over at most 500 lines; with no session id no session (and no
status) is produced; otherwise an active compaction forces `Compacting`
and anything else defers to `determine_status`. -/
def parse_session_status (recentLines : List JsonlMessage)
    (fileAgeSecs : Option ℚ) (cpuUsage : ℚ) : Option SessionStatus :=
  let st := scanLoop initScanState (recentLines.take 500)
  match st.sessionId with
  | none => none
  | some _ =>
    some (if st.isCompacting then .Compacting
      else determine_status st.lastMsgType st.lastHasToolUse st.lastHasToolResult
        st.lastIsLocalCommand st.lastIsInterrupted fileAgeSecs cpuUsage)

/-- A compaction-finished line (`isCompactSummary: true`) that carries no
message payload, as a newest transcript line. -/
def compactSummaryNoContentLine : JsonlMessage :=
  { sessionId := some "s", gitBranch := none, timestamp := none,
    msgType := some "user", subtype := none, isCompactSummary := some true,
    message := none }

/-- A compaction-started line (`subtype: "compact_boundary"`). -/
def compactBoundaryLine : JsonlMessage :=
  { sessionId := some "s", gitBranch := none, timestamp := none,
    msgType := some "system", subtype := some "compact_boundary",
    isCompactSummary := none, message := none }

/-- `path.strip_prefix('/')` in `convert_path_to_dir_name`
(`session/parser.rs` line 52): drop one leading slash when present. -/
def stripLeadingSlash : List Char → List Char
  | '/' :: rest => rest
  | l => l

/-- The character loop of `convert_path_to_dir_name` (`session/parser.rs`
lines 55-72): copy characters, turning `/` into `-`, except that `/`
followed by `.` becomes `--` with the dot dropped. -/
def encodeChars : List Char → List Char
  | [] => []
  | [c] => if c = '/' then ['-'] else [c]
  | c :: d :: rest =>
    if c = '/' then
      if d = '.' then '-' :: '-' :: encodeChars rest
      else '-' :: encodeChars (d :: rest)
    else c :: encodeChars (d :: rest)

/-- `convert_path_to_dir_name` from `session/parser.rs` (lines 50-75):
a `-` followed by the encoded characters of the path with its leading
slash stripped. -/
def convert_path_to_dir_name (path : String) : String :=
  ⟨'-' :: encodeChars (stripLeadingSlash path.data)⟩

/-- Modelled from the spec's words for C6 only, to be compared with
`convert_path_to_dir_name`: "strip leading separator; replace each path
separator with a dash; when a separator is immediately followed by a
hidden-folder marker (name starting with a dot), emit a double dash and
drop the dot". -/
def spec_encode_chars : List Char → List Char
  | [] => []
  | [c] => if c = '/' then ['-'] else [c]
  | c :: d :: rest =>
    if c = '/' then
      if d = '.' then '-' :: '-' :: spec_encode_chars rest
      else '-' :: spec_encode_chars (d :: rest)
    else c :: spec_encode_chars (d :: rest)

/-- The spec-described encoder for C6: the stripped path with separators
replaced, and nothing else. -/
def spec_encode (path : String) : String :=
  ⟨spec_encode_chars (stripLeadingSlash path.data)⟩

/-- The fields of `AgentProcess` used by the correlator
(`session/parser.rs`): pid and start time (seconds since epoch). -/
structure AgentProc : Type where
  pid : Nat
  start_time : Nat
  deriving DecidableEq, Repr

/-- A candidate transcript file: its path and its creation time when the
filesystem reports one (`path.metadata().created()`). -/
structure FileMeta : Type where
  path : String
  created : Option Nat
  deriving DecidableEq, Repr

/-- The absolute time delta computed in `match_processes_to_files_by_time`
(`session/parser.rs` lines 439-443). -/
def natDist (a b : Nat) : Nat :=
  if a > b then a - b else b - a

/-- `(idx, created_secs)` for every candidate file whose creation time is
readable (`session/parser.rs` lines 401-409). -/
def fileTimesOf (candidateFiles : List FileMeta) : List (Nat × Nat) :=
  candidateFiles.enum.filterMap (fun it => it.2.created.map (fun t => (it.1, t)))

/-- All `(process_idx, file_idx, distance)` pairs, process-major
(`session/parser.rs` lines 436-446). -/
def allPairs (processes : List AgentProc) (fileTimes : List (Nat × Nat)) :
    List (Nat × Nat × Nat) :=
  processes.enum.flatMap (fun pi =>
    fileTimes.map (fun ft => (pi.1, ft.1, natDist pi.2.start_time ft.2)))

/-- Stable insertion by distance (third component). -/
def insertByDist (x : Nat × Nat × Nat) : List (Nat × Nat × Nat) → List (Nat × Nat × Nat)
  | [] => [x]
  | y :: ys => if y.2.2 < x.2.2 then y :: insertByDist x ys else x :: y :: ys

/-- `pairs.sort_by_key(distance)` — Rust's sort is stable; this insertion
sort computes the same (unique) stable ascending reordering. -/
def sortByDist : List (Nat × Nat × Nat) → List (Nat × Nat × Nat)
  | [] => []
  | x :: xs => insertByDist x (sortByDist xs)

/-- The mutable state of the greedy commit loop (`session/parser.rs` lines
449-472): the `pid → path` map under construction (later insertions in
front, matching `HashMap::insert` overwrite plus first-match lookup) and
the committed process and file indices. -/
structure GreedyState : Type where
  result : List (Nat × String)
  assignedP : List Nat
  assignedF : List Nat
  deriving DecidableEq, Repr

/-- One iteration of the greedy commit loop: skip a pair whose process or
file is already committed, otherwise commit it. -/
def greedyCommit (processes : List AgentProc) (files : List FileMeta)
    (st : GreedyState) (pair : Nat × Nat × Nat) : GreedyState :=
  if pair.1 ∈ st.assignedP ∨ pair.2.1 ∈ st.assignedF then st
  else
    match processes.get? pair.1, files.get? pair.2.1 with
    | some p, some f =>
      ⟨(p.pid, f.path) :: st.result, pair.1 :: st.assignedP, pair.2.1 :: st.assignedF⟩
    | _, _ => st

/-- `match_processes_to_files_by_time` from `session/parser.rs` (lines
388-481): empty unless there are at least two processes, a candidate file,
and a readable creation time; otherwise the greedy minimum-distance
assignment over all sorted (process, file) pairs. -/
def match_processes_to_files_by_time (processes : List AgentProc)
    (candidateFiles : List FileMeta) : List (Nat × String) :=
  if processes.length < 2 ∨ candidateFiles.isEmpty then []
  else
    let fileTimes := fileTimesOf candidateFiles
    if fileTimes.isEmpty then []
    else
      (((sortByDist (allPairs processes fileTimes)).foldl
        (greedyCommit processes candidateFiles) ⟨[], [], []⟩)).result

/-- `HashMap::get` on the pid map. -/
def lookupPid (m : List (Nat × String)) (pid : Nat) : Option String :=
  (m.find? (fun kv => kv.1 = pid)).map (·.2)

/-- `Iterator::position`: index of the first element satisfying `p`. -/
def positionIdx {α : Type} (p : α → Bool) : List α → Option Nat
  | [] => none
  | x :: xs => if p x then some 0 else (positionIdx p xs).map (· + 1)

/-- One iteration of the assignment loop in `get_sessions_internal`
(`session/parser.rs` lines 246-270): map-based index when the pid was
matched, otherwise the first index not yet used, defaulting to 0; the
chosen index is recorded as used either way. -/
def assignStep (files : List FileMeta) (pidToJsonl : List (Nat × String))
    (acc : List (Nat × Nat) × List Nat) (p : AgentProc) :
    List (Nat × Nat) × List Nat :=
  let fromMap := (lookupPid pidToJsonl p.pid).bind
    (fun path => positionIdx (fun f => f.path = path) files)
  let fileIndex :=
    match fromMap with
    | some i => i
    | none => (((List.range files.length).find? (fun i => !(acc.2.contains i))).getD 0)
  (acc.1 ++ [(p.pid, fileIndex)], fileIndex :: acc.2)

/-- The file index chosen for each process of one project in a single scan
(`session/parser.rs` lines 239-270): the time-based map is consulted only
when several processes share the directory. -/
def assignFileIndices (processes : List AgentProc) (files : List FileMeta) :
    List (Nat × Nat) :=
  let pidToJsonl :=
    if processes.length > 1 then match_processes_to_files_by_time processes files
    else []
  (processes.foldl (assignStep files pidToJsonl) ([], [])).1

/-- `find_session_for_process` produces a session only when the chosen
index denotes an existing file (`jsonl_files.get(index)?`,
`session/parser.rs` line 497): the per-scan (pid, file path) pairings that
can yield sessions. -/
def resolvedSessionFiles (processes : List AgentProc) (files : List FileMeta) :
    List (Nat × String) :=
  (assignFileIndices processes files).filterMap
    (fun pi => (files.get? pi.2).map (fun f => (pi.1, f.path)))

/-- Verification invariant of the greedy commit loop: committed index
lists are duplicate-free, in range and of equal length, and the result map
mirrors the committed indices: its pids and paths are duplicate-free,
every entry comes from a committed process and file index, and every
committed process index has its pid in the map. -/
structure GreedyInv (processes : List AgentProc) (files : List FileMeta)
    (st : GreedyState) : Prop where
  len_eq : st.assignedP.length = st.assignedF.length
  nodupP : st.assignedP.Nodup
  nodupF : st.assignedF.Nodup
  boundP : ∀ pi ∈ st.assignedP, pi < processes.length
  boundF : ∀ fi ∈ st.assignedF, fi < files.length
  nodupPids : (st.result.map Prod.fst).Nodup
  nodupPaths : (st.result.map Prod.snd).Nodup
  entryP : ∀ kv ∈ st.result,
    ∃ pi ∈ st.assignedP, (processes.get? pi).map AgentProc.pid = some kv.1
  entryF : ∀ kv ∈ st.result,
    ∃ fi ∈ st.assignedF, (files.get? fi).map FileMeta.path = some kv.2
  coverP : ∀ pi ∈ st.assignedP, ∀ p, processes.get? pi = some p →
    p.pid ∈ st.result.map Prod.fst

/-- `dir_name.strip_prefix('-')` in `convert_dir_name_to_path`
(`session/parser.rs` line 88): drop one leading dash when present. -/
def stripLeadingDash : List Char → List Char
  | '-' :: rest => rest
  | l => l

/-- `name.split("--")` (`session/parser.rs` line 91): greedy left-to-right
split on double dashes, like Rust's `str::split`. -/
def splitSeg : List Char → List (List Char)
  | [] => [[]]
  | [c] => [[c]]
  | c :: d :: rest =>
    if c = '-' ∧ d = '-' then [] :: splitSeg rest
    else
      match splitSeg (d :: rest) with
      | [] => [[c]]
      | s :: ss => (c :: s) :: ss

/-- `segment.split('-')` (`session/parser.rs` line 122). -/
def splitDash : List Char → List (List Char)
  | [] => [[]]
  | c :: rest =>
    if c = '-' then [] :: splitDash rest
    else
      match splitDash rest with
      | [] => [[c]]
      | s :: ss => (c :: s) :: ss

/-- `parts.join("-")` (`session/parser.rs` line 144). -/
def joinDash : List (List Char) → List Char
  | [] => []
  | [s] => s
  | s :: rest => s ++ '-' :: joinDash rest

/-- The probing loop of `resolve_segment_with_fs` (`session/parser.rs`
lines 129-148): extend the confirmed path part by part while the
filesystem reports a directory; at the first failure the remaining parts
(failing part included) are joined with dashes as the leaf name. -/
def probeLoop (fs : List Char → Bool) (confirmed : List Char) :
    List (List Char) → List Char
  | [] => confirmed
  | part :: rest =>
    if fs (confirmed ++ '/' :: part) then probeLoop fs (confirmed ++ '/' :: part) rest
    else confirmed ++ '/' :: joinDash (part :: rest)

/-- `resolve_segment_with_fs` from `session/parser.rs` (lines 121-149),
over characters, with the probed filesystem as an oracle. -/
def resolveSegChars (fs : List Char → Bool) (segment : List Char) : List Char :=
  match splitDash segment with
  | [] => []
  | p0 :: rest => probeLoop fs ('/' :: p0) rest

/-- The hidden-segment loop of `convert_dir_name_to_path`
(`session/parser.rs` lines 103-113): each double-dash segment contributes
a dot-prefixed folder followed by one subfolder per remaining dash part. -/
def hiddenAppendChars (path : List Char) : List (List Char) → List Char
  | [] => path
  | seg :: rest =>
    hiddenAppendChars
      (match splitDash seg with
       | [] => path
       | first :: others =>
         others.foldl (fun acc part => acc ++ '/' :: part)
           (path ++ '/' :: '.' :: first))
      rest

/-- `convert_dir_name_to_path` from `session/parser.rs` (lines 86-116)
over characters. -/
def decodeChars (fs : List Char → Bool) (name : List Char) : List Char :=
  match splitSeg (stripLeadingDash name) with
  | [] => []
  | seg0 :: rest => hiddenAppendChars (resolveSegChars fs seg0) rest

/-- `convert_dir_name_to_path` from `session/parser.rs` (lines 86-116):
the filesystem probe `Path::new(&candidate).is_dir()` is the oracle
`fs`. -/
def convert_dir_name_to_path (fs : String → Bool) (dirName : String) : String :=
  ⟨decodeChars (fun l => fs ⟨l⟩) dirName.data⟩

/-- The characters of `"c0/c1/.../cn"`. -/
def interSlash : List String → List Char
  | [] => []
  | [c] => c.data
  | c :: rest => c.data ++ '/' :: interSlash rest

/-- The absolute path `"/c0/c1/.../cn"` with the given components. -/
def pathOfComps (comps : List String) : String :=
  ⟨'/' :: interSlash comps⟩

/-- A component is a hidden folder when its name starts with a dot. -/
def isHiddenComp (c : String) : Bool :=
  match c.data with
  | '.' :: _ => true
  | _ => false

/-- No two adjacent dashes. -/
def noDD : List Char → Bool
  | [] => true
  | [_] => true
  | c :: d :: rest => !(c = '-' && d = '-') && noDD (d :: rest)

/-- The characters `"/c0/c1/.../cn"` contributed by appended components. -/
def slashJoin (l : List String) : List Char :=
  l.flatMap (fun c => '/' :: c.data)

/-- The encoded chunk a non-leading component contributes: a dash plus the
component, except that hidden components contribute a double dash with
the dot dropped. -/
def encTail : List String → List Char
  | [] => []
  | c :: rest =>
    (if isHiddenComp c then '-' :: '-' :: c.data.tail else '-' :: c.data) ++ encTail rest

/-- Group the components from the first hidden one onward into runs: each
run is one hidden component followed by its non-hidden successors. -/
def groupHidden : List String → List (List String)
  | [] => []
  | c :: rest =>
    (c :: rest.takeWhile (fun x => !isHiddenComp x))
      :: groupHidden (rest.dropWhile (fun x => !isHiddenComp x))
termination_by l => l.length
decreasing_by
  simp only [List.length_cons]
  exact Nat.lt_succ_of_le (List.dropWhile_sublist _).length_le

/-- The double-dash segment body a hidden-led run encodes to. -/
def segBody : List String → List Char
  | [] => []
  | h :: plains => h.data.tail ++ encTail plains

/-- Decoding unambiguity for the absolute path with components
`c0 :: cs`, probing the filesystem `fs`: every component is non-empty and
slash-free; the first component is not hidden; every component from the
first hidden one onward is dash-free; every non-leaf component of the
plain leading run is dash-free; every proper prefix directory of the
plain leading run past the first component exists on `fs`; and a dashed
leaf is allowed only as the final component of a hidden-free path, with
no double dash, no leading dash, and a failing probe for its first
dash-fragment. -/
def Unambiguous (fs : String → Bool) (c0 : String) (cs : List String) : Prop :=
  let comps := c0 :: cs
  let seg0 := comps.takeWhile (fun c => !isHiddenComp c)
  let rest := comps.drop seg0.length
  (∀ c ∈ comps, c.data ≠ [] ∧ '/' ∉ c.data)
  ∧ isHiddenComp c0 = false
  ∧ (∀ c ∈ rest, '-' ∉ c.data)
  ∧ (∀ c ∈ seg0.dropLast, '-' ∉ c.data)
  ∧ (∀ i < seg0.length, 2 ≤ i → fs (pathOfComps (seg0.take i)) = true)
  ∧ ('-' ∈ (seg0.getLastD "").data →
      2 ≤ seg0.length ∧ noDD (seg0.getLastD "").data = true
      ∧ (seg0.getLastD "").data.head? ≠ some '-'
      ∧ (rest ≠ [] → (seg0.getLastD "").data.getLast? ≠ some '-')
      ∧ fs (pathOfComps (seg0.dropLast
          ++ [⟨(splitDash (seg0.getLastD "").data).headD []⟩])) = false)

instance (fs : String → Bool) (c0 : String) (cs : List String) :
    Decidable (Unambiguous fs c0 cs) := by
  unfold Unambiguous
  infer_instance

-- --------------------------------------------------------------------------
-- Theorems
-- --------------------------------------------------------------------------

/-- C1: `determine_status`, with no active compaction, maps each class of
inputs to the status the spec's table gives: assistant+tool with file age
at least 8s and CPU at most 5% is `Waiting`; assistant+tool with file age
under 8s or CPU above 5% is `Processing`; assistant without tool is
`Processing` under 3s of file age and `Idle` otherwise; a user message
without local-command or interruption markers is `Thinking`; a user
message with either marker is `Idle`; no determinable message is
`Processing` under 3s of file age and `Idle` otherwise. -/
theorem determine_status_cases :
    (∀ (r l i : Bool) (a cpu : ℚ), 8 ≤ a → cpu ≤ 5 →
      determine_status (some "assistant") true r l i (some a) cpu = .Waiting)
    ∧ (∀ (r l i : Bool) (a cpu : ℚ), a < 8 ∨ 5 < cpu →
      determine_status (some "assistant") true r l i (some a) cpu = .Processing)
    ∧ (∀ (r l i : Bool) (a cpu : ℚ), a < 3 →
      determine_status (some "assistant") false r l i (some a) cpu = .Processing)
    ∧ (∀ (r l i : Bool) (age : Option ℚ) (cpu : ℚ), (∀ a, age = some a → 3 ≤ a) →
      determine_status (some "assistant") false r l i age cpu = .Idle)
    ∧ (∀ (u r : Bool) (age : Option ℚ) (cpu : ℚ),
      determine_status (some "user") u r false false age cpu = .Thinking)
    ∧ (∀ (u r l i : Bool) (age : Option ℚ) (cpu : ℚ), l = true ∨ i = true →
      determine_status (some "user") u r l i age cpu = .Idle)
    ∧ (∀ (u r l i : Bool) (a cpu : ℚ), a < 3 →
      determine_status none u r l i (some a) cpu = .Processing)
    ∧ (∀ (u r l i : Bool) (age : Option ℚ) (cpu : ℚ), (∀ a, age = some a → 3 ≤ a) →
      determine_status none u r l i age cpu = .Idle) := by
  refine ⟨?_, ?_, ?_, ?_, ?_, ?_, ?_, ?_⟩
  · intro r l i a cpu h1 h2
    simp [determine_status, not_lt.mpr h1, not_lt.mpr h2]
  · intro r l i a cpu h
    rcases h with h | h
    · simp [determine_status, h]
    · simp [determine_status, h]
  · intro r l i a cpu h
    simp [determine_status, h]
  · intro r l i age cpu h
    cases age with
    | none => simp [determine_status]
    | some a => simp [determine_status, not_lt.mpr (h a rfl)]
  · intro u r age cpu
    cases age <;> simp [determine_status]
  · intro u r l i age cpu h
    rcases h with h | h <;> subst h <;> cases age <;> simp [determine_status]
  · intro u r l i a cpu h
    simp [determine_status, h]
  · intro u r l i age cpu h
    cases age with
    | none => simp [determine_status]
    | some a => simp [determine_status, not_lt.mpr (h a rfl)]

/-- Witness for C1: each case of `determine_status_cases` applied at a
concrete input. -/
theorem determine_status_cases_witness :
    determine_status (some "assistant") true false false false (some 10) 0 = .Waiting
    ∧ determine_status (some "assistant") true false false false (some 1) 0 = .Processing
    ∧ determine_status (some "assistant") false false false false (some 1) 0 = .Processing
    ∧ determine_status (some "assistant") false false false false (some 10) 0 = .Idle
    ∧ determine_status (some "user") false false false false (some 10) 0 = .Thinking
    ∧ determine_status (some "user") false false true false (some 10) 0 = .Idle
    ∧ determine_status none false false false false (some 1) 0 = .Processing
    ∧ determine_status none false false false false (some 10) 0 = .Idle := by
  obtain ⟨h1, h2, h3, h4, h5, h6, h7, h8⟩ := determine_status_cases
  refine ⟨h1 false false false 10 0 (by norm_num) (by norm_num),
    h2 false false false 1 0 (Or.inl (by norm_num)),
    h3 false false false 1 0 (by norm_num),
    h4 false false false (some 10) 0 ?_,
    h5 false false (some 10) 0,
    h6 false false true false (some 10) 0 (Or.inl rfl),
    h7 false false false false 1 0 (by norm_num),
    h8 false false false false (some 10) 0 ?_⟩
  · intro a ha
    cases ha
    norm_num
  · intro a ha
    cases ha
    norm_num

/-- C10: `determine_status` does not depend on its `_has_tool_result`
argument: for any fixing of the other arguments, the two boolean values
give the same status. -/
theorem determine_status_ignores_tool_result (t : Option String)
    (u r₁ r₂ l i : Bool) (age : Option ℚ) (cpu : ℚ) :
    determine_status t u r₁ l i age cpu = determine_status t u r₂ l i age cpu := rfl

/-- C7: `is_orphaned_process` classifies a process as orphaned exactly when
it has no parent, or its parent's pid is the init pid 1, or its parent is
missing from the process table, or its parent's recorded parent is pid 1;
in particular a process with a live, non-init parent and grandparent chain
is not orphaned. -/
theorem is_orphaned_process_iff (table : List SysProcess) (p : SysProcess) :
    is_orphaned_process table p = true ↔
      p.parent = none
      ∨ p.parent = some 1
      ∨ (∃ pp, p.parent = some pp ∧ sysLookup table pp = none)
      ∨ (∃ pp q, p.parent = some pp ∧ sysLookup table pp = some q
          ∧ q.parent = some 1) := by
  cases hp : p.parent with
  | none => simp [is_orphaned_process, hp]
  | some pp =>
    by_cases hpp : pp = 1
    · subst hpp
      simp [is_orphaned_process, hp]
    · cases hlook : sysLookup table pp with
      | none =>
        simp [is_orphaned_process, hp, hpp, hlook]
      | some q =>
        cases hq : q.parent with
        | none =>
          simp [is_orphaned_process, hp, hpp, hlook, hq]
        | some gp =>
          by_cases hgp : gp = 1
          · subst hgp
            simp [is_orphaned_process, hp, hpp, hlook, hq]
          · simp [is_orphaned_process, hp, hpp, hlook, hq, hgp]

/-- C8: after computing a session, an active-subagent count above zero
replaces an inferred `Waiting` or `Idle` with `Processing`; a zero count,
or an inferred `Thinking`, `Processing` or `Compacting`, keeps the
inferred status. -/
theorem apply_subagent_override_spec :
    (∀ (n : Nat) (st : SessionStatus), 0 < n → st = .Waiting ∨ st = .Idle →
      apply_subagent_override n st = .Processing)
    ∧ (∀ st : SessionStatus, apply_subagent_override 0 st = st)
    ∧ (∀ (n : Nat) (st : SessionStatus),
        st = .Thinking ∨ st = .Processing ∨ st = .Compacting →
        apply_subagent_override n st = st) := by
  refine ⟨?_, ?_, ?_⟩
  · intro n st hn hst
    simp [apply_subagent_override, hn, hst]
  · intro st
    simp [apply_subagent_override]
  · intro n st hst
    rcases hst with h | h | h <;> subst h <;> simp [apply_subagent_override]

/-- Witness for C8: the override applied at concrete inputs. -/
theorem apply_subagent_override_spec_witness :
    apply_subagent_override 2 .Waiting = .Processing
    ∧ apply_subagent_override 0 .Idle = .Idle
    ∧ apply_subagent_override 2 .Thinking = .Thinking := by
  obtain ⟨h1, h2, h3⟩ := apply_subagent_override_spec
  exact ⟨h1 2 .Waiting (by norm_num) (Or.inl rfl), h2 .Idle,
    h3 2 .Thinking (Or.inl rfl)⟩

/-- C3, failing input: scanning newest to oldest, a compaction-finished
marker (without content) is encountered first, then a compaction-started
marker; the claim requires the normal inference rules (here: no
determinable message, stale file, hence `Idle`), but the code still
reports `Compacting`, contradicting its own comment ("If isCompactSummary
comes first → compaction already finished"). -/
theorem parse_session_status_compact_summary_divergence :
    parse_session_status [compactSummaryNoContentLine, compactBoundaryLine]
        (some 10) 0 = some .Compacting
    ∧ determine_status none false false false false (some 10) 0 = .Idle := by
  constructor
  · rfl
  · rfl

/-- The two character transformations agree; the encoders differ only in
the leading dash. -/
theorem encodeChars_eq_spec : ∀ l : List Char, encodeChars l = spec_encode_chars l
  | [] => rfl
  | [c] => by simp [encodeChars, spec_encode_chars]
  | c :: d :: rest => by
    have h1 := encodeChars_eq_spec rest
    have h2 := encodeChars_eq_spec (d :: rest)
    by_cases hc : c = '/'
    · by_cases hd : d = '.'
      · subst hc
        subst hd
        simp [encodeChars, spec_encode_chars, h1]
      · subst hc
        simp [encodeChars, spec_encode_chars, hd, h2]
    · simp [encodeChars, spec_encode_chars, hc, h2]

/-- Counterexample for C6: at the path `"/a"` the encoder's output `"-a"`
differs from the claim's described output `"a"` (the claim omits the
leading dash the encoder always emits). -/
theorem convert_path_to_dir_name_c6_counterexample :
    convert_path_to_dir_name "/a" ≠ spec_encode "/a" := by decide

/-- C6 amended: for every path, the encoder's output is a single dash
followed by the path with the leading separator stripped, each remaining
separator replaced by a dash, and each separator-plus-dot replaced by a
double dash with the dot dropped. -/
theorem convert_path_to_dir_name_eq_dash_spec (path : String) :
    convert_path_to_dir_name path = "-" ++ spec_encode path := by
  unfold convert_path_to_dir_name spec_encode
  rw [encodeChars_eq_spec]
  rfl

/-- Counterexample for C2: with two processes (pids 1 and 2, start times 0
and 100) and a single candidate file created at 100, the time-based match
claims the file for pid 2, and pid 1's fallback exhausts the unclaimed
indices and defaults to index 0 as well — the same transcript file is
assigned to both processes in one scan. -/
theorem assignFileIndices_c2_counterexample :
    ¬ List.Pairwise (fun a b : Nat × Nat => a.2 ≠ b.2)
      (assignFileIndices [⟨1, 0⟩, ⟨2, 100⟩] [⟨"f0", some 100⟩]) := by decide

/-- C9: a value inserted at time `now` into a cache with `ttl = some d` is
returned by `get` strictly before `now + d` and absent strictly after;
with `ttl = none` it is returned at every time, until pruning drops its
key. -/
theorem ttlCache_expiry {α : Type} (c : TtlCache α) (k : String) (v : α)
    (now t : ℚ) :
    (∀ d, c.ttl = some d → t < now + d → (c.insert now k v).get t k = some v)
    ∧ (∀ d, c.ttl = some d → now + d < t → (c.insert now k v).get t k = none)
    ∧ (c.ttl = none → (c.insert now k v).get t k = some v)
    ∧ (∀ activeKeys : List String, ¬ k ∈ activeKeys →
        ((c.insert now k v).retainKeys activeKeys).get t k = none) := by
  have hlook : (c.insert now k v).lookupEntry k = some ⟨v, now⟩ := by
    simp [TtlCache.insert, TtlCache.lookupEntry, List.find?]
  have httl : (c.insert now k v).ttl = c.ttl := rfl
  refine ⟨?_, ?_, ?_, ?_⟩
  · intro d hd ht
    have hgt : ¬ t - now > d := by linarith
    simp [TtlCache.get, hlook, httl, hd, hgt]
  · intro d hd ht
    have hgt : t - now > d := by linarith
    simp [TtlCache.get, hlook, httl, hd, hgt]
  · intro hd
    simp [TtlCache.get, hlook, httl, hd]
  · intro activeKeys hk
    have hfind : ((c.insert now k v).retainKeys activeKeys).lookupEntry k = none := by
      unfold TtlCache.lookupEntry TtlCache.retainKeys
      rw [Option.map_eq_none']
      rw [List.find?_eq_none]
      intro kv hkv
      simp only [List.mem_filter] at hkv
      simp only [decide_eq_true_eq]
      intro hkey
      subst hkey
      exact hk (by simpa using hkv.2)
    simp [TtlCache.get, hfind]

/-- Witness for C9: `ttlCache_expiry` applied to a concrete cache with
ttl 5, insertion at time 10, and gets at times 12 and 20; and to a
concrete permanent cache. -/
theorem ttlCache_expiry_witness :
    ((⟨[], some 5⟩ : TtlCache Nat).insert 10 "k" 42).get 12 "k" = some 42
    ∧ ((⟨[], some 5⟩ : TtlCache Nat).insert 10 "k" 42).get 20 "k" = none
    ∧ ((⟨[], none⟩ : TtlCache Nat).insert 10 "k" 42).get 1000 "k" = some 42
    ∧ (((⟨[], none⟩ : TtlCache Nat).insert 10 "k" 42).retainKeys ["other"]).get
        1000 "k" = none := by
  obtain ⟨h1, h2, h3, h4⟩ :=
    ttlCache_expiry (α := Nat) (⟨[], some 5⟩ : TtlCache Nat) "k" 42 10 12
  obtain ⟨g1, g2, g3, g4⟩ :=
    ttlCache_expiry (α := Nat) (⟨[], some 5⟩ : TtlCache Nat) "k" 42 10 20
  obtain ⟨p1, p2, p3, p4⟩ :=
    ttlCache_expiry (α := Nat) (⟨[], none⟩ : TtlCache Nat) "k" 42 10 1000
  exact ⟨h1 5 rfl (by norm_num), g2 5 rfl (by norm_num), p3 rfl,
    p4 ["other"] (by decide)⟩

/-- Membership is preserved by distance-insertion. -/
theorem mem_insertByDist (x y : Nat × Nat × Nat) (l : List (Nat × Nat × Nat)) :
    x ∈ insertByDist y l ↔ x = y ∨ x ∈ l := by
  induction l with
  | nil => simp [insertByDist]
  | cons z zs ih =>
    simp only [insertByDist]
    split
    · simp only [List.mem_cons, ih]
      tauto
    · simp only [List.mem_cons]

/-- Membership is preserved by the stable sort. -/
theorem mem_sortByDist (x : Nat × Nat × Nat) (l : List (Nat × Nat × Nat)) :
    x ∈ sortByDist l ↔ x ∈ l := by
  induction l with
  | nil => simp [sortByDist]
  | cons z zs ih => simp [sortByDist, mem_insertByDist, ih]

/-- A successful `positionIdx` points at an element satisfying the
predicate. -/
theorem positionIdx_some {α : Type} (p : α → Bool) :
    ∀ (l : List α) (i : Nat), positionIdx p l = some i →
      ∃ x, l.get? i = some x ∧ p x = true := by
  intro l
  induction l with
  | nil => intro i h; simp [positionIdx] at h
  | cons x xs ih =>
    intro i h
    by_cases hp : p x
    · simp [positionIdx, hp] at h
      subst h
      exact ⟨x, rfl, hp⟩
    · simp [positionIdx, hp] at h
      obtain ⟨j, hj, rfl⟩ := h
      obtain ⟨y, hy, hpy⟩ := ih j hj
      exact ⟨y, by simpa using hy, hpy⟩

/-- `positionIdx` succeeds when some element satisfies the predicate. -/
theorem positionIdx_isSome_of_mem {α : Type} (p : α → Bool) :
    ∀ (l : List α) (x : α), x ∈ l → p x = true →
      (positionIdx p l).isSome := by
  intro l
  induction l with
  | nil => intro x hx; simp at hx
  | cons y ys ih =>
    intro x hx hp
    by_cases hy : p y
    · simp [positionIdx, hy]
    · rcases List.mem_cons.mp hx with rfl | hx'
      · exact absurd hp (by simp [hy])
      · simp only [positionIdx, hy, if_neg, Bool.false_eq_true, ite_false]
        have := ih x hx' hp
        cases hpi : positionIdx p ys with
        | none => rw [hpi] at this; simp at this
        | some j => simp [hpi]

/-- A successful pid lookup returns an entry of the map. -/
theorem lookupPid_some_mem (m : List (Nat × String)) (pid : Nat) (s : String)
    (h : lookupPid m pid = some s) : (pid, s) ∈ m := by
  unfold lookupPid at h
  cases hf : m.find? (fun kv => kv.1 = pid) with
  | none => rw [hf] at h; simp at h
  | some kv =>
    rw [hf] at h
    simp only [Option.map_some', Option.some_inj] at h
    have hmem := List.mem_of_find?_eq_some hf
    have hkey := List.find?_some hf
    simp only [decide_eq_true_eq] at hkey
    have : kv = (pid, s) := by
      cases kv with
      | mk a b => simp only [Prod.mk.injEq]; exact ⟨hkey, h⟩
    rwa [this] at hmem

/-- A pid appearing among the map's keys has a successful lookup. -/
theorem lookupPid_isSome_of_mem (m : List (Nat × String)) (pid : Nat)
    (h : pid ∈ m.map Prod.fst) : (lookupPid m pid).isSome := by
  obtain ⟨kv, hkv, hfst⟩ := List.mem_map.mp h
  have hsome : (m.find? (fun kv => kv.1 = pid)).isSome := by
    rw [List.find?_isSome]
    exact ⟨kv, hkv, by simp [hfst]⟩
  unfold lookupPid
  cases hx : m.find? (fun kv => kv.1 = pid) with
  | none => rw [hx] at hsome; simp at hsome
  | some x => simp

/-- The index list produced by `enumFrom` is strictly increasing. -/
theorem pairwise_fst_lt_enumFrom {α : Type} :
    ∀ (k : Nat) (l : List α),
      (List.enumFrom k l).Pairwise (fun a b => a.1 < b.1) := by
  intro k l
  induction l generalizing k with
  | nil => simp
  | cons x xs ih =>
    rw [List.enumFrom_cons]
    refine List.Pairwise.cons ?_ (ih (k + 1))
    intro y hy
    obtain ⟨i, a⟩ := y
    have := (List.mem_enumFrom hy).1
    simpa using by omega

/-- The file-time index list is strictly increasing. -/
theorem fileTimesOf_pairwise (files : List FileMeta) :
    (fileTimesOf files).Pairwise (fun a b => a.1 < b.1) := by
  unfold fileTimesOf
  refine List.Pairwise.filterMap _ ?_ (pairwise_fst_lt_enumFrom 0 files)
  intro a a' hlt b hb b' hb'
  cases ha : a.2.created with
  | none => rw [ha] at hb; simp at hb
  | some t =>
    cases ha' : a'.2.created with
    | none => rw [ha'] at hb'; simp at hb'
    | some t' =>
      rw [ha] at hb
      rw [ha'] at hb'
      simp only [Option.map_some', Option.mem_def, Option.some_inj] at hb hb'
      subst hb
      subst hb'
      simpa using hlt

/-- Every file-time entry records the creation time of the file at its
index. -/
theorem fileTimesOf_mem (files : List FileMeta) (ft : Nat × Nat)
    (h : ft ∈ fileTimesOf files) :
    ∃ f, files.get? ft.1 = some f ∧ f.created = some ft.2 := by
  unfold fileTimesOf at h
  obtain ⟨it, hit, hg⟩ := List.mem_filterMap.mp h
  cases hc : it.2.created with
  | none => rw [hc] at hg; simp at hg
  | some t =>
    rw [hc] at hg
    simp only [Option.map_some', Option.some_inj] at hg
    have hidx : files.get? it.1 = some it.2 := by
      have := List.mem_enum_iff_getElem?.mp hit
      simpa [List.get?_eq_getElem?] using this
    refine ⟨it.2, ?_, ?_⟩
    · rw [← hg]; exact hidx
    · rw [← hg]; simpa using hc

/-- There are as many file-time entries as files with readable creation
times. -/
theorem fileTimesOf_length (files : List FileMeta) :
    (fileTimesOf files).length = (files.filterMap FileMeta.created).length := by
  unfold fileTimesOf
  suffices h : ∀ (k : Nat) (l : List FileMeta),
      ((List.enumFrom k l).filterMap
        (fun it => it.2.created.map (fun t => (it.1, t)))).length
      = (l.filterMap FileMeta.created).length by
    simpa [List.enum] using h 0 files
  intro k l
  induction l generalizing k with
  | nil => simp
  | cons x xs ih =>
    rw [List.enumFrom_cons]
    cases hc : x.created with
    | none => simp [List.filterMap_cons, hc, ih]
    | some t => simp [List.filterMap_cons, hc, ih]

/-- The two shapes a greedy-commit step can take when both indices of the
pair are in range: skip (already committed on either side) or commit. -/
theorem greedyCommit_cases (processes : List AgentProc) (files : List FileMeta)
    (st : GreedyState) (pair : Nat × Nat × Nat)
    (hb1 : pair.1 < processes.length) (hb2 : pair.2.1 < files.length) :
    ((pair.1 ∈ st.assignedP ∨ pair.2.1 ∈ st.assignedF)
      ∧ greedyCommit processes files st pair = st)
    ∨ (¬ (pair.1 ∈ st.assignedP ∨ pair.2.1 ∈ st.assignedF)
      ∧ ∃ p f, processes.get? pair.1 = some p ∧ files.get? pair.2.1 = some f
      ∧ greedyCommit processes files st pair =
        ⟨(p.pid, f.path) :: st.result, pair.1 :: st.assignedP,
          pair.2.1 :: st.assignedF⟩) := by
  by_cases h : pair.1 ∈ st.assignedP ∨ pair.2.1 ∈ st.assignedF
  · left
    exact ⟨h, by simp [greedyCommit, h]⟩
  · right
    cases hp : processes.get? pair.1 with
    | none =>
      rw [List.get?_eq_none] at hp
      omega
    | some p =>
      cases hf : files.get? pair.2.1 with
      | none =>
        rw [List.get?_eq_none] at hf
        omega
      | some f =>
        have hp' : processes[pair.1]? = some p := by
          rw [← List.get?_eq_getElem?]; exact hp
        have hf' : files[pair.2.1]? = some f := by
          rw [← List.get?_eq_getElem?]; exact hf
        exact ⟨h, p, f, rfl, rfl, by simp [greedyCommit, h, hp', hf']⟩

/-- Committed process indices persist through one greedy step. -/
theorem greedyCommit_aP_mono (processes : List AgentProc) (files : List FileMeta)
    (st : GreedyState) (pair : Nat × Nat × Nat) :
    st.assignedP ⊆ (greedyCommit processes files st pair).assignedP := by
  unfold greedyCommit
  by_cases h : pair.1 ∈ st.assignedP ∨ pair.2.1 ∈ st.assignedF
  · simp [h]
  · simp only [h, if_false]
    cases processes.get? pair.1 with
    | none => simp
    | some p =>
      cases files.get? pair.2.1 with
      | none => simp
      | some f => exact List.subset_cons_self _ _

/-- Committed file indices persist through one greedy step. -/
theorem greedyCommit_aF_mono (processes : List AgentProc) (files : List FileMeta)
    (st : GreedyState) (pair : Nat × Nat × Nat) :
    st.assignedF ⊆ (greedyCommit processes files st pair).assignedF := by
  unfold greedyCommit
  by_cases h : pair.1 ∈ st.assignedP ∨ pair.2.1 ∈ st.assignedF
  · simp [h]
  · simp only [h, if_false]
    cases processes.get? pair.1 with
    | none => simp
    | some p =>
      cases files.get? pair.2.1 with
      | none => simp
      | some f => exact List.subset_cons_self _ _

/-- Committed process indices persist through the whole greedy fold. -/
theorem greedy_foldl_aP_mono (processes : List AgentProc) (files : List FileMeta) :
    ∀ (pairs : List (Nat × Nat × Nat)) (st : GreedyState),
      st.assignedP ⊆ (pairs.foldl (greedyCommit processes files) st).assignedP := by
  intro pairs
  induction pairs with
  | nil => intro st; exact fun x hx => hx
  | cons y ys ih =>
    intro st
    exact fun x hx =>
      ih (greedyCommit processes files st y)
        (greedyCommit_aP_mono processes files st y hx)

/-- Committed file indices persist through the whole greedy fold. -/
theorem greedy_foldl_aF_mono (processes : List AgentProc) (files : List FileMeta) :
    ∀ (pairs : List (Nat × Nat × Nat)) (st : GreedyState),
      st.assignedF ⊆ (pairs.foldl (greedyCommit processes files) st).assignedF := by
  intro pairs
  induction pairs with
  | nil => intro st; exact fun x hx => hx
  | cons y ys ih =>
    intro st
    exact fun x hx =>
      ih (greedyCommit processes files st y)
        (greedyCommit_aF_mono processes files st y hx)

/-- After the greedy fold, each input pair has its process index or its
file index committed. -/
theorem greedy_pair_covered (processes : List AgentProc) (files : List FileMeta) :
    ∀ (pairs : List (Nat × Nat × Nat)),
      (∀ x ∈ pairs, x.1 < processes.length ∧ x.2.1 < files.length) →
      ∀ (st : GreedyState), ∀ x ∈ pairs,
        x.1 ∈ (pairs.foldl (greedyCommit processes files) st).assignedP
        ∨ x.2.1 ∈ (pairs.foldl (greedyCommit processes files) st).assignedF := by
  intro pairs
  induction pairs with
  | nil => intro _ st x hx; simp at hx
  | cons y ys ih =>
    intro hb st x hx
    rcases List.mem_cons.mp hx with rfl | hx'
    · have hby := hb x (List.mem_cons_self x ys)
      rcases greedyCommit_cases processes files st x hby.1 hby.2 with
        ⟨hmem, heq⟩ | ⟨_, p, f, _, _, heq⟩
      · rw [List.foldl_cons, heq]
        rcases hmem with hmem | hmem
        · exact Or.inl (greedy_foldl_aP_mono processes files ys st hmem)
        · exact Or.inr (greedy_foldl_aF_mono processes files ys st hmem)
      · rw [List.foldl_cons, heq]
        exact Or.inl (greedy_foldl_aP_mono processes files ys _
          (List.mem_cons_self _ _))
    · exact ih (fun z hz => hb z (List.mem_cons_of_mem y hz))
        (greedyCommit processes files st y) x hx'

/-- The greedy invariant is preserved by the whole fold, for pairs whose
indices are in range, when process pids and file paths are
duplicate-free. -/
theorem greedy_invariant (processes : List AgentProc) (files : List FileMeta)
    (hpidN : (processes.map AgentProc.pid).Nodup)
    (hpathN : (files.map FileMeta.path).Nodup) :
    ∀ (pairs : List (Nat × Nat × Nat)),
      (∀ x ∈ pairs, x.1 < processes.length ∧ x.2.1 < files.length) →
      ∀ (st : GreedyState), GreedyInv processes files st →
        GreedyInv processes files (pairs.foldl (greedyCommit processes files) st) := by
  intro pairs
  induction pairs with
  | nil => intro _ st hst; exact hst
  | cons y ys ih =>
    intro hb st hst
    rw [List.foldl_cons]
    refine ih (fun z hz => hb z (List.mem_cons_of_mem y hz)) _ ?_
    have hby := hb y (List.mem_cons_self y ys)
    rcases greedyCommit_cases processes files st y hby.1 hby.2 with
      ⟨_, heq⟩ | ⟨hnot, p, f, hp, hf, heq⟩
    · rw [heq]; exact hst
    · rw [heq]
      push_neg at hnot
      obtain ⟨hnp, hnf⟩ := hnot
      have hpidmem : p.pid ∉ st.result.map Prod.fst := by
        intro hmem
        obtain ⟨kv, hkv, hkvfst⟩ := List.mem_map.mp hmem
        obtain ⟨pi, hpiA, hpi⟩ := hst.entryP kv hkv
        cases hgp : processes.get? pi with
        | none => rw [hgp] at hpi; simp at hpi
        | some q =>
          rw [hgp] at hpi
          simp only [Option.map_some', Option.some_inj] at hpi
          have hipq : y.1 = pi := by
            have h1 : processes.get? y.1 = some p := hp
            have h2 : processes.get? pi = some q := hgp
            have : p.pid = q.pid := by rw [hkvfst] at hpi; exact hpi.symm
            have hylt : y.1 < processes.length := hby.1
            have hmap1 : (processes.map AgentProc.pid).get? y.1 = some p.pid := by
              rw [List.get?_map, h1, Option.map_some']
            have hmap2 : (processes.map AgentProc.pid).get? pi = some q.pid := by
              rw [List.get?_map, h2, Option.map_some']
            apply List.getElem?_inj (by simpa using hylt) hpidN
            rw [← List.get?_eq_getElem?, ← List.get?_eq_getElem?, hmap1, hmap2, this]
          exact hnp (hipq ▸ hpiA)
      have hpathmem : f.path ∉ st.result.map Prod.snd := by
        intro hmem
        obtain ⟨kv, hkv, hkvsnd⟩ := List.mem_map.mp hmem
        obtain ⟨fi, hfiA, hfi⟩ := hst.entryF kv hkv
        cases hgf : files.get? fi with
        | none => rw [hgf] at hfi; simp at hfi
        | some g =>
          rw [hgf] at hfi
          simp only [Option.map_some', Option.some_inj] at hfi
          have hifq : y.2.1 = fi := by
            have : f.path = g.path := by rw [hkvsnd] at hfi; exact hfi.symm
            have hmap1 : (files.map FileMeta.path).get? y.2.1 = some f.path := by
              rw [List.get?_map, hf, Option.map_some']
            have hmap2 : (files.map FileMeta.path).get? fi = some g.path := by
              rw [List.get?_map, hgf, Option.map_some']
            apply List.getElem?_inj (by simpa using hby.2) hpathN
            rw [← List.get?_eq_getElem?, ← List.get?_eq_getElem?, hmap1, hmap2, this]
          exact hnf (hifq ▸ hfiA)
      refine ⟨?_, ?_, ?_, ?_, ?_, ?_, ?_, ?_, ?_, ?_⟩
      · simpa using hst.len_eq
      · exact List.Nodup.cons hnp hst.nodupP
      · exact List.Nodup.cons hnf hst.nodupF
      · intro pi hpi
        rcases List.mem_cons.mp hpi with rfl | hpi'
        · exact hby.1
        · exact hst.boundP pi hpi'
      · intro fi hfi
        rcases List.mem_cons.mp hfi with rfl | hfi'
        · exact hby.2
        · exact hst.boundF fi hfi'
      · exact List.Nodup.cons hpidmem hst.nodupPids
      · exact List.Nodup.cons hpathmem hst.nodupPaths
      · intro kv hkv
        rcases List.mem_cons.mp hkv with rfl | hkv'
        · exact ⟨y.1, List.mem_cons_self _ _, by rw [hp, Option.map_some']⟩
        · obtain ⟨pi, hpiA, hpi⟩ := hst.entryP kv hkv'
          exact ⟨pi, List.mem_cons_of_mem _ hpiA, hpi⟩
      · intro kv hkv
        rcases List.mem_cons.mp hkv with rfl | hkv'
        · exact ⟨y.2.1, List.mem_cons_self _ _, by rw [hf, Option.map_some']⟩
        · obtain ⟨fi, hfiA, hfi⟩ := hst.entryF kv hkv'
          exact ⟨fi, List.mem_cons_of_mem _ hfiA, hfi⟩
      · intro pi hpi q hq
        rcases List.mem_cons.mp hpi with rfl | hpi'
        · have : q = p := by rw [hp] at hq; exact (Option.some_inj.mp hq).symm
          subst this
          exact List.mem_cons_self _ _
        · exact List.mem_cons_of_mem _ (hst.coverP pi hpi' q hq)

/-- Every pair built by the correlator has in-range process and file
indices. -/
theorem allPairs_bounds (processes : List AgentProc) (files : List FileMeta) :
    ∀ x ∈ allPairs processes (fileTimesOf files),
      x.1 < processes.length ∧ x.2.1 < files.length := by
  intro x hx
  unfold allPairs at hx
  obtain ⟨pi, hpi, hx'⟩ := List.mem_flatMap.mp hx
  obtain ⟨ft, hft, rfl⟩ := List.mem_map.mp hx'
  constructor
  · have := List.mem_enum_iff_getElem?.mp hpi
    rw [← List.get?_eq_getElem?] at this
    exact (List.get?_eq_some.mp this).1
  · obtain ⟨f, hf, _⟩ := fileTimesOf_mem files ft hft
    exact (List.get?_eq_some.mp hf).1

/-- Bounds carry over to the sorted pair list. -/
theorem sorted_allPairs_bounds (processes : List AgentProc) (files : List FileMeta) :
    ∀ x ∈ sortByDist (allPairs processes (fileTimesOf files)),
      x.1 < processes.length ∧ x.2.1 < files.length :=
  fun x hx => allPairs_bounds processes files x ((mem_sortByDist x _).mp hx)

/-- The invariant holds before any pair is processed. -/
theorem greedyInv_init (processes : List AgentProc) (files : List FileMeta) :
    GreedyInv processes files ⟨[], [], []⟩ := by
  refine ⟨rfl, List.nodup_nil, List.nodup_nil, ?_, ?_, List.nodup_nil,
    List.nodup_nil, ?_, ?_, ?_⟩ <;> intro x hx <;> simp at hx

/-- When at least as many candidate files carry creation times as there
are processes, the greedy fold commits every process index. -/
theorem greedy_all_assigned (processes : List AgentProc) (files : List FileMeta)
    (hpidN : (processes.map AgentProc.pid).Nodup)
    (hpathN : (files.map FileMeta.path).Nodup)
    (hlen : processes.length ≤ (fileTimesOf files).length) :
    ∀ pi0 < processes.length,
      pi0 ∈ ((sortByDist (allPairs processes (fileTimesOf files))).foldl
        (greedyCommit processes files) ⟨[], [], []⟩).assignedP := by
  intro pi0 hpi0
  by_contra hni
  have hb := sorted_allPairs_bounds processes files
  have hinv := greedy_invariant processes files hpidN hpathN
    (sortByDist (allPairs processes (fileTimesOf files))) hb
    ⟨[], [], []⟩ (greedyInv_init processes files)
  have hstep1 : ∀ ft ∈ fileTimesOf files,
      ft.1 ∈ ((sortByDist (allPairs processes (fileTimesOf files))).foldl
        (greedyCommit processes files) ⟨[], [], []⟩).assignedF := by
    intro ft hft
    obtain ⟨p, hp⟩ : ∃ p, processes.get? pi0 = some p := by
      cases h : processes.get? pi0 with
      | none =>
        rw [List.get?_eq_none] at h
        omega
      | some p => exact ⟨p, rfl⟩
    have hpen : (pi0, p) ∈ processes.enum := by
      apply List.mem_enum_iff_getElem?.mpr
      rw [← List.get?_eq_getElem?]
      exact hp
    have hmem : (pi0, ft.1, natDist p.start_time ft.2)
        ∈ allPairs processes (fileTimesOf files) := by
      unfold allPairs
      exact List.mem_flatMap.mpr ⟨(pi0, p), hpen, List.mem_map.mpr ⟨ft, hft, rfl⟩⟩
    have hmem' := (mem_sortByDist _ _).mpr hmem
    rcases greedy_pair_covered processes files _ hb ⟨[], [], []⟩ _ hmem' with h | h
    · exact absurd h hni
    · exact h
  have hfstN : ((fileTimesOf files).map Prod.fst).Nodup := by
    simp only [List.Nodup, List.pairwise_map]
    exact (fileTimesOf_pairwise files).imp (fun hlt => Nat.ne_of_lt hlt)
  have hsub : ((fileTimesOf files).map Prod.fst) ⊆
      ((sortByDist (allPairs processes (fileTimesOf files))).foldl
        (greedyCommit processes files) ⟨[], [], []⟩).assignedF := by
    intro x hx
    obtain ⟨ft, hft, rfl⟩ := List.mem_map.mp hx
    exact hstep1 ft hft
  have h1 : (fileTimesOf files).length ≤
      ((sortByDist (allPairs processes (fileTimesOf files))).foldl
        (greedyCommit processes files) ⟨[], [], []⟩).assignedF.length := by
    calc (fileTimesOf files).length
        = ((fileTimesOf files).map Prod.fst).length := by simp
      _ = ((fileTimesOf files).map Prod.fst).toFinset.card :=
          (List.toFinset_card_of_nodup hfstN).symm
      _ ≤ (((sortByDist (allPairs processes (fileTimesOf files))).foldl
            (greedyCommit processes files) ⟨[], [], []⟩).assignedF).toFinset.card :=
          Finset.card_le_card (fun x hx =>
            List.mem_toFinset.mpr (hsub (List.mem_toFinset.mp hx)))
      _ ≤ _ := List.toFinset_card_le _
  have h2 := hinv.len_eq
  have h3 : ((sortByDist (allPairs processes (fileTimesOf files))).foldl
      (greedyCommit processes files) ⟨[], [], []⟩).assignedP.length ≤
      processes.length - 1 := by
    have hss : (((sortByDist (allPairs processes (fileTimesOf files))).foldl
        (greedyCommit processes files) ⟨[], [], []⟩).assignedP).toFinset ⊆
        (Finset.range processes.length).erase pi0 := by
      intro x hx
      have hxm := List.mem_toFinset.mp hx
      refine Finset.mem_erase.mpr ⟨?_, Finset.mem_range.mpr (hinv.boundP x hxm)⟩
      rintro rfl
      exact hni hxm
    calc ((sortByDist (allPairs processes (fileTimesOf files))).foldl
          (greedyCommit processes files) ⟨[], [], []⟩).assignedP.length
        = (((sortByDist (allPairs processes (fileTimesOf files))).foldl
            (greedyCommit processes files) ⟨[], [], []⟩).assignedP).toFinset.card :=
          (List.toFinset_card_of_nodup hinv.nodupP).symm
      _ ≤ ((Finset.range processes.length).erase pi0).card := Finset.card_le_card hss
      _ ≤ processes.length - 1 := by
          rw [Finset.card_erase_of_mem (Finset.mem_range.mpr hpi0), Finset.card_range]
  omega

/-- When every process's pid resolves through the map to a file index, the
assignment loop emits exactly those map-resolved indices, in process
order. -/
theorem assign_foldl_map_branch (files : List FileMeta) (m : List (Nat × String)) :
    ∀ (processes : List AgentProc),
      (∀ p ∈ processes, ((lookupPid m p.pid).bind
        (fun path => positionIdx (fun f => f.path = path) files)).isSome) →
      ∀ (acc : List (Nat × Nat)) (used : List Nat),
        (processes.foldl (assignStep files m) (acc, used)).1
        = acc ++ processes.map (fun p => (p.pid,
            ((lookupPid m p.pid).bind
              (fun path => positionIdx (fun f => f.path = path) files)).getD 0)) := by
  intro processes
  induction processes with
  | nil => intro _ acc used; simp
  | cons p ps ih =>
    intro h acc used
    rw [List.foldl_cons]
    obtain ⟨i, hi⟩ := Option.isSome_iff_exists.mp (h p (List.mem_cons_self p ps))
    have hstep : assignStep files m (acc, used) p = (acc ++ [(p.pid, i)], i :: used) := by
      unfold assignStep
      simp [hi]
    rw [hstep, ih (fun q hq => h q (List.mem_cons_of_mem p hq))]
    simp [hi]

/-- C2 amended: within one scan, no transcript file index is assigned to
two processes provided pids and file paths are duplicate-free and at least
as many candidate files carry readable creation times as there are
processes (the claim as stated fails when processes outnumber the files
with creation times, because the fallback then reuses index 0); and with
no candidate files at all, no process yields a session. -/
theorem assignFileIndices_c2_amended :
    (∀ (processes : List AgentProc) (files : List FileMeta),
      (processes.map AgentProc.pid).Nodup →
      (files.map FileMeta.path).Nodup →
      processes.length ≤ (files.filterMap FileMeta.created).length →
      List.Pairwise (fun a b : Nat × Nat => a.2 ≠ b.2)
        (assignFileIndices processes files))
    ∧ (∀ processes : List AgentProc, resolvedSessionFiles processes [] = []) := by
  constructor
  · intro processes files hpidN hpathN hcount
    by_cases hsmall : processes.length < 2
    · rcases processes with _ | ⟨p, _ | ⟨q, qs⟩⟩
      · simp [assignFileIndices]
      · simp only [assignFileIndices]
        rw [if_neg (by simp)]
        rw [List.foldl_cons, List.foldl_nil]
        unfold assignStep
        simp only [lookupPid, List.find?_nil, Option.map_none', Option.none_bind]
        exact List.pairwise_singleton _ _
      · simp at hsmall
        omega
    · push_neg at hsmall
      have hlen' : processes.length ≤ (fileTimesOf files).length := by
        rw [fileTimesOf_length]
        exact hcount
      have hfne : files ≠ [] := by
        intro hemp
        subst hemp
        have h0 : (List.filterMap FileMeta.created ([] : List FileMeta)).length = 0 := rfl
        omega
      have hftne : fileTimesOf files ≠ [] := by
        intro h0
        rw [h0] at hlen'
        simp only [List.length_nil] at hlen'
        omega
      have hm : match_processes_to_files_by_time processes files
          = ((sortByDist (allPairs processes (fileTimesOf files))).foldl
            (greedyCommit processes files) ⟨[], [], []⟩).result := by
        unfold match_processes_to_files_by_time
        rw [if_neg (by simp [hfne]; omega)]
        simp only
        rw [if_neg (by simp [hftne])]
      have hinv := greedy_invariant processes files hpidN hpathN
        (sortByDist (allPairs processes (fileTimesOf files)))
        (sorted_allPairs_bounds processes files)
        ⟨[], [], []⟩ (greedyInv_init processes files)
      have htotal := greedy_all_assigned processes files hpidN hpathN hlen'
      -- every process resolves through the map
      have hres : ∀ p ∈ processes,
          ((lookupPid (match_processes_to_files_by_time processes files) p.pid).bind
            (fun path => positionIdx (fun f => f.path = path) files)).isSome := by
        intro p hp
        obtain ⟨iP, hiP⟩ := List.get?_of_mem hp
        have hiPlt : iP < processes.length := (List.get?_eq_some.mp hiP).1
        have hiPA := htotal iP hiPlt
        have hpid_mem := hinv.coverP iP hiPA p hiP
        rw [← hm] at hpid_mem
        obtain ⟨s, hs⟩ := Option.isSome_iff_exists.mp
          (lookupPid_isSome_of_mem _ p.pid hpid_mem)
        rw [hs]
        obtain ⟨fi, hfiA, hfi⟩ :=
          hinv.entryF (p.pid, s) (by rw [← hm]; exact lookupPid_some_mem _ _ _ hs)
        cases hgf : files.get? fi with
        | none => rw [hgf] at hfi; simp at hfi
        | some f =>
          rw [hgf] at hfi
          simp only [Option.map_some', Option.some_inj] at hfi
          simp only [Option.some_bind]
          exact positionIdx_isSome_of_mem _ files f (List.get?_mem hgf) (by simp [hfi])
      -- unfold the assignment to the mapped form
      have hgt : processes.length > 1 := hsmall
      have hassign : assignFileIndices processes files
          = processes.map (fun p => (p.pid,
              ((lookupPid (match_processes_to_files_by_time processes files) p.pid).bind
                (fun path => positionIdx (fun f => f.path = path) files)).getD 0)) := by
        unfold assignFileIndices
        rw [if_pos hgt]
        rw [assign_foldl_map_branch files _ processes hres [] []]
        simp
      rw [hassign]
      rw [List.pairwise_map]
      have hpidPW : processes.Pairwise (fun a b => a.pid ≠ b.pid) := by
        simpa [List.Nodup, List.pairwise_map] using hpidN
      refine hpidPW.imp_of_mem ?_
      intro a b ha hb hne heq
      simp only at heq
      -- both lookups succeeded; equal indices force equal paths, then equal
      -- map entries, contradicting distinct pids
      obtain ⟨ia, hia⟩ := Option.isSome_iff_exists.mp (hres a ha)
      obtain ⟨ib, hib⟩ := Option.isSome_iff_exists.mp (hres b hb)
      obtain ⟨sa, hsa⟩ : ∃ s, lookupPid (match_processes_to_files_by_time processes files) a.pid = some s := by
        cases hx : lookupPid (match_processes_to_files_by_time processes files) a.pid with
        | none => rw [hx] at hia; simp at hia
        | some s => exact ⟨s, rfl⟩
      obtain ⟨sb, hsb⟩ : ∃ s, lookupPid (match_processes_to_files_by_time processes files) b.pid = some s := by
        cases hx : lookupPid (match_processes_to_files_by_time processes files) b.pid with
        | none => rw [hx] at hib; simp at hib
        | some s => exact ⟨s, rfl⟩
      rw [hsa, Option.some_bind] at hia
      rw [hsb, Option.some_bind] at hib
      rw [hsa, hsb, Option.some_bind, Option.some_bind, hia, hib] at heq
      simp only [Option.getD_some] at heq
      subst heq
      obtain ⟨fa, hfa, hpa⟩ := positionIdx_some _ files ia hia
      obtain ⟨fb, hfb, hpb⟩ := positionIdx_some _ files ia hib
      have hfab : fa = fb := by rw [hfa] at hfb; exact Option.some_inj.mp hfb
      simp only [decide_eq_true_eq] at hpa hpb
      have hspath : sa = sb := by rw [← hpa, ← hpb, hfab]
      subst hspath
      have hma := lookupPid_some_mem _ _ _ hsa
      have hmb := lookupPid_some_mem _ _ _ hsb
      rw [hm] at hma hmb
      have := List.inj_on_of_nodup_map hinv.nodupPaths hma hmb rfl
      have : a.pid = b.pid := congrArg Prod.fst this
      exact hne this
  · intro processes
    simp [resolvedSessionFiles]

/-- Witness for the C2 amended theorem: two processes, two files with
creation times near each process's start time, and the empty-file case. -/
theorem assignFileIndices_c2_amended_witness :
    List.Pairwise (fun a b : Nat × Nat => a.2 ≠ b.2)
      (assignFileIndices [⟨1, 10⟩, ⟨2, 100⟩] [⟨"f0", some 99⟩, ⟨"f1", some 11⟩])
    ∧ resolvedSessionFiles [⟨1, 10⟩, ⟨2, 100⟩] [] = [] := by
  obtain ⟨h1, h2⟩ := assignFileIndices_c2_amended
  exact ⟨h1 [⟨1, 10⟩, ⟨2, 100⟩] [⟨"f0", some 99⟩, ⟨"f1", some 11⟩]
    (by decide) (by decide) (by decide), h2 [⟨1, 10⟩, ⟨2, 100⟩]⟩

/-- C4: the greedy minimum-distance correlator (all (process, file) deltas,
sorted ascending, each pair committed only when neither side is already
committed) never assigns one file path to two processes; and in the
two-process, two-file instance where each process is strictly closer to
its own file than to the other pairings, each process is paired with its
nearer file. -/
theorem match_by_time_c4 :
    (∀ (processes : List AgentProc) (files : List FileMeta),
      (processes.map AgentProc.pid).Nodup →
      (files.map FileMeta.path).Nodup →
      ((match_processes_to_files_by_time processes files).map Prod.snd).Nodup)
    ∧ (∀ (pid1 pid2 t1 t2 c1 c2 : Nat) (path1 path2 : String),
      pid1 ≠ pid2 → path1 ≠ path2 →
      natDist t1 c1 < natDist t1 c2 → natDist t1 c1 < natDist t2 c1 →
      natDist t2 c2 < natDist t1 c2 → natDist t2 c2 < natDist t2 c1 →
      lookupPid (match_processes_to_files_by_time
        [⟨pid1, t1⟩, ⟨pid2, t2⟩] [⟨path1, some c1⟩, ⟨path2, some c2⟩]) pid1
        = some path1
      ∧ lookupPid (match_processes_to_files_by_time
        [⟨pid1, t1⟩, ⟨pid2, t2⟩] [⟨path1, some c1⟩, ⟨path2, some c2⟩]) pid2
        = some path2) := by
  constructor
  · intro processes files hpidN hpathN
    simp only [match_processes_to_files_by_time]
    split
    · exact List.nodup_nil
    · split
      · exact List.nodup_nil
      · exact (greedy_invariant processes files hpidN hpathN
          (sortByDist (allPairs processes (fileTimesOf files)))
          (sorted_allPairs_bounds processes files)
          ⟨[], [], []⟩ (greedyInv_init processes files)).nodupPaths
  · intro pid1 pid2 t1 t2 c1 c2 path1 path2 hne hpne hA hB hC hD
    have nBA : ¬ natDist t2 c1 < natDist t1 c1 := Nat.not_lt.mpr (Nat.le_of_lt hB)
    have nAA : ¬ natDist t1 c2 < natDist t1 c1 := Nat.not_lt.mpr (Nat.le_of_lt hA)
    have hfts : fileTimesOf [⟨path1, some c1⟩, ⟨path2, some c2⟩]
        = [(0, c1), (1, c2)] := by
      simp [fileTimesOf, List.enum, List.enumFrom]
    have hap : allPairs [⟨pid1, t1⟩, ⟨pid2, t2⟩] [(0, c1), (1, c2)]
        = [(0, 0, natDist t1 c1), (0, 1, natDist t1 c2),
           (1, 0, natDist t2 c1), (1, 1, natDist t2 c2)] := by
      simp [allPairs, List.enum, List.enumFrom]
    have hsorted1 : insertByDist (1, 0, natDist t2 c1) [(1, 1, natDist t2 c2)]
        = [(1, 1, natDist t2 c2), (1, 0, natDist t2 c1)] := by
      simp [insertByDist, hD]
    rcases Nat.lt_or_ge (natDist t2 c1) (natDist t1 c2) with hE | hE
    · -- cross pairs ordered d21 < d12
      have hsorted2 : insertByDist (0, 1, natDist t1 c2)
          [(1, 1, natDist t2 c2), (1, 0, natDist t2 c1)]
          = [(1, 1, natDist t2 c2), (1, 0, natDist t2 c1), (0, 1, natDist t1 c2)] := by
        simp [insertByDist, hC, hE]
      rcases Nat.lt_or_ge (natDist t2 c2) (natDist t1 c1) with hF | hF
      · have hsorted3 : sortByDist [(0, 0, natDist t1 c1), (0, 1, natDist t1 c2),
            (1, 0, natDist t2 c1), (1, 1, natDist t2 c2)]
            = [(1, 1, natDist t2 c2), (0, 0, natDist t1 c1),
               (1, 0, natDist t2 c1), (0, 1, natDist t1 c2)] := by
          simp only [sortByDist]
          rw [show insertByDist (1, 1, natDist t2 c2) ([] : List (Nat × Nat × Nat))
            = [(1, 1, natDist t2 c2)] from rfl, hsorted1, hsorted2]
          simp [insertByDist, hF, nBA]
        rw [match_processes_to_files_by_time, if_neg (by simp)]
        simp only [hfts, hap, hsorted3, List.isEmpty_cons, if_false,
          Bool.false_eq_true]
        simp [greedyCommit, lookupPid, hne, Ne.symm hne]
      · have hsorted3 : sortByDist [(0, 0, natDist t1 c1), (0, 1, natDist t1 c2),
            (1, 0, natDist t2 c1), (1, 1, natDist t2 c2)]
            = [(0, 0, natDist t1 c1), (1, 1, natDist t2 c2),
               (1, 0, natDist t2 c1), (0, 1, natDist t1 c2)] := by
          simp only [sortByDist]
          rw [show insertByDist (1, 1, natDist t2 c2) ([] : List (Nat × Nat × Nat))
            = [(1, 1, natDist t2 c2)] from rfl, hsorted1, hsorted2]
          simp [insertByDist, Nat.not_lt.mpr hF]
        rw [match_processes_to_files_by_time, if_neg (by simp)]
        simp only [hfts, hap, hsorted3, List.isEmpty_cons, if_false,
          Bool.false_eq_true]
        simp [greedyCommit, lookupPid, hne, Ne.symm hne]
    · -- cross pairs ordered d12 ≤ d21
      have hsorted2 : insertByDist (0, 1, natDist t1 c2)
          [(1, 1, natDist t2 c2), (1, 0, natDist t2 c1)]
          = [(1, 1, natDist t2 c2), (0, 1, natDist t1 c2), (1, 0, natDist t2 c1)] := by
        simp [insertByDist, hC, Nat.not_lt.mpr hE]
      rcases Nat.lt_or_ge (natDist t2 c2) (natDist t1 c1) with hF | hF
      · have hsorted3 : sortByDist [(0, 0, natDist t1 c1), (0, 1, natDist t1 c2),
            (1, 0, natDist t2 c1), (1, 1, natDist t2 c2)]
            = [(1, 1, natDist t2 c2), (0, 0, natDist t1 c1),
               (0, 1, natDist t1 c2), (1, 0, natDist t2 c1)] := by
          simp only [sortByDist]
          rw [show insertByDist (1, 1, natDist t2 c2) ([] : List (Nat × Nat × Nat))
            = [(1, 1, natDist t2 c2)] from rfl, hsorted1, hsorted2]
          simp [insertByDist, hF, nAA]
        rw [match_processes_to_files_by_time, if_neg (by simp)]
        simp only [hfts, hap, hsorted3, List.isEmpty_cons, if_false,
          Bool.false_eq_true]
        simp [greedyCommit, lookupPid, hne, Ne.symm hne]
      · have hsorted3 : sortByDist [(0, 0, natDist t1 c1), (0, 1, natDist t1 c2),
            (1, 0, natDist t2 c1), (1, 1, natDist t2 c2)]
            = [(0, 0, natDist t1 c1), (1, 1, natDist t2 c2),
               (0, 1, natDist t1 c2), (1, 0, natDist t2 c1)] := by
          simp only [sortByDist]
          rw [show insertByDist (1, 1, natDist t2 c2) ([] : List (Nat × Nat × Nat))
            = [(1, 1, natDist t2 c2)] from rfl, hsorted1, hsorted2]
          simp [insertByDist, Nat.not_lt.mpr hF]
        rw [match_processes_to_files_by_time, if_neg (by simp)]
        simp only [hfts, hap, hsorted3, List.isEmpty_cons, if_false,
          Bool.false_eq_true]
        simp [greedyCommit, lookupPid, hne, Ne.symm hne]

/-- Witness for C4: concrete processes with start times 10 and 100 and
files created at 11 and 99. -/
theorem match_by_time_c4_witness :
    ((match_processes_to_files_by_time [⟨7, 10⟩, ⟨8, 100⟩]
        [⟨"a", some 11⟩, ⟨"b", some 99⟩]).map Prod.snd).Nodup
    ∧ lookupPid (match_processes_to_files_by_time [⟨7, 10⟩, ⟨8, 100⟩]
        [⟨"a", some 11⟩, ⟨"b", some 99⟩]) 7 = some "a"
    ∧ lookupPid (match_processes_to_files_by_time [⟨7, 10⟩, ⟨8, 100⟩]
        [⟨"a", some 11⟩, ⟨"b", some 99⟩]) 8 = some "b" := by
  obtain ⟨h1, h2⟩ := match_by_time_c4
  obtain ⟨ha, hb⟩ := h2 7 8 10 100 11 99 "a" "b" (by decide) (by decide)
    (by decide) (by decide) (by decide) (by decide)
  exact ⟨h1 [⟨7, 10⟩, ⟨8, 100⟩] [⟨"a", some 11⟩, ⟨"b", some 99⟩]
    (by decide) (by decide), ha, hb⟩

/-- Non-slash characters are copied verbatim by the encoder. -/
theorem encodeChars_cons_ne (c : Char) (l : List Char) (h : c ≠ '/') :
    encodeChars (c :: l) = c :: encodeChars l := by
  cases l with
  | nil => simp [encodeChars, h]
  | cons d t => simp [encodeChars, h]

/-- A slash-free block passes through the encoder unchanged. -/
theorem encodeChars_append_no_slash :
    ∀ (m l : List Char), '/' ∉ m → encodeChars (m ++ l) = m ++ encodeChars l := by
  intro m
  induction m with
  | nil => intro l _; rfl
  | cons c m ih =>
    intro l hm
    have hc : c ≠ '/' := fun hc => hm (hc ▸ List.mem_cons_self c m)
    rw [List.cons_append, encodeChars_cons_ne c _ hc,
      ih l (fun hx => hm (List.mem_cons_of_mem c hx))]
    rfl

/-- A slash-free list passes through the encoder unchanged. -/
theorem encodeChars_no_slash (m : List Char) (h : '/' ∉ m) : encodeChars m = m := by
  have := encodeChars_append_no_slash m [] h
  simpa [encodeChars] using this

/-- Slash before a dot encodes to a double dash with the dot dropped. -/
theorem encodeChars_slash_dot (l : List Char) :
    encodeChars ('/' :: '.' :: l) = '-' :: '-' :: encodeChars l := by
  simp [encodeChars]

/-- Slash before anything else encodes to a single dash. -/
theorem encodeChars_slash_ne (d : Char) (l : List Char) (h : d ≠ '.') :
    encodeChars ('/' :: d :: l) = '-' :: encodeChars (d :: l) := by
  simp [encodeChars, h]

/-- `interSlash` unfoldings. -/
theorem interSlash_cons_cons (a b : String) (l : List String) :
    interSlash (a :: b :: l) = a.data ++ '/' :: interSlash (b :: l) := rfl

/-- `encTail` distributes over append. -/
theorem encTail_append :
    ∀ (xs ys : List String), encTail (xs ++ ys) = encTail xs ++ encTail ys := by
  intro xs ys
  induction xs with
  | nil => rfl
  | cons c xs ih => simp [encTail, ih]

/-- The encoder turns a slash followed by components into the components'
dash chunks. -/
theorem encodeChars_slash_interSlash :
    ∀ (cs : List String) (c : String),
      (∀ x ∈ c :: cs, x.data ≠ [] ∧ '/' ∉ x.data) →
      encodeChars ('/' :: interSlash (c :: cs)) = encTail (c :: cs) := by
  intro cs
  induction cs with
  | nil =>
    intro c hgood
    obtain ⟨hne, hns⟩ := hgood c (List.mem_cons_self _ _)
    cases hd : c.data with
    | nil => exact absurd hd hne
    | cons h t =>
      have hns' : '/' ∉ t := fun hx => hns (by rw [hd]; exact List.mem_cons_of_mem _ hx)
      by_cases hdot : h = '.'
      · subst hdot
        show encodeChars ('/' :: c.data) = encTail [c]
        rw [hd, encodeChars_slash_dot, encodeChars_no_slash t hns']
        simp [encTail, isHiddenComp, hd]
      · show encodeChars ('/' :: c.data) = encTail [c]
        rw [hd, encodeChars_slash_ne h t hdot,
          encodeChars_no_slash (h :: t) (by intro hx; exact hns (by rw [hd]; exact hx))]
        have hhid : isHiddenComp c = false := by
          unfold isHiddenComp
          rw [hd]
          simp [hdot]
        simp [encTail, hhid, hd]
  | cons c' cs' ih =>
    intro c hgood
    obtain ⟨hne, hns⟩ := hgood c (List.mem_cons_self _ _)
    rw [interSlash_cons_cons]
    cases hd : c.data with
    | nil => exact absurd hd hne
    | cons h t =>
      have hns' : '/' ∉ t := fun hx => hns (by rw [hd]; exact List.mem_cons_of_mem _ hx)
      have hrest := ih c' (fun x hx => hgood x (List.mem_cons_of_mem c hx))
      by_cases hdot : h = '.'
      · subst hdot
        rw [List.cons_append, encodeChars_slash_dot,
          encodeChars_append_no_slash t _ hns', hrest]
        have hhid : isHiddenComp c = true := by
          unfold isHiddenComp
          rw [hd]
          rfl
        simp [encTail, hhid, hd]
      · rw [List.cons_append, encodeChars_slash_ne h _ hdot, ← List.cons_append,
          encodeChars_append_no_slash (h :: t) _
            (by intro hx; exact hns (by rw [hd]; exact hx)), hrest]
        have hhid : isHiddenComp c = false := by
          unfold isHiddenComp
          rw [hd]
          simp [hdot]
        simp [encTail, hhid, hd]

/-- The encoder output for a whole component list. -/
theorem encodeChars_interSlash (c0 : String) (cs : List String)
    (hgood : ∀ x ∈ c0 :: cs, x.data ≠ [] ∧ '/' ∉ x.data) :
    encodeChars (interSlash (c0 :: cs)) = c0.data ++ encTail cs := by
  cases cs with
  | nil =>
    have := encodeChars_append_no_slash c0.data []
      (hgood c0 (List.mem_cons_self _ _)).2
    simp only [encodeChars, List.append_nil] at this
    simpa [interSlash, encTail] using this
  | cons c1 cs' =>
    rw [interSlash_cons_cons,
      encodeChars_append_no_slash c0.data _ (hgood c0 (List.mem_cons_self _ _)).2,
      encodeChars_slash_interSlash cs' c1 (fun x hx => hgood x (List.mem_cons_of_mem _ hx))]

/-- `splitSeg` never returns the empty list. -/
theorem splitSeg_ne_nil : ∀ l : List Char, splitSeg l ≠ [] := by
  intro l
  match l with
  | [] => simp [splitSeg]
  | [c] => simp [splitSeg]
  | c :: d :: rest =>
    simp only [splitSeg]
    split
    · simp
    · cases h : splitSeg (d :: rest) <;> simp

/-- `splitDash` never returns the empty list. -/
theorem splitDash_ne_nil : ∀ l : List Char, splitDash l ≠ [] := by
  intro l
  match l with
  | [] => simp [splitDash]
  | c :: rest =>
    simp only [splitDash]
    split
    · simp
    · cases h : splitDash rest <;> simp

/-- A list with no double dash is a single `--`-segment. -/
theorem splitSeg_of_noDD : ∀ a : List Char, noDD a = true → splitSeg a = [a]
  | [], _ => rfl
  | [c], _ => rfl
  | c :: d :: rest, h => by
    have h1 : ¬(c = '-' ∧ d = '-') := by
      intro ⟨hc, hd⟩
      simp [noDD, hc, hd] at h
    have h2 : noDD (d :: rest) = true := by
      simp only [noDD, Bool.and_eq_true] at h
      exact h.2
    have ih := splitSeg_of_noDD (d :: rest) h2
    simp [splitSeg, h1, ih]

/-- A clean segment followed by a double dash splits off exactly. -/
theorem splitSeg_append_dd :
    ∀ (a b : List Char), noDD a = true → a.getLast? ≠ some '-' →
      splitSeg (a ++ '-' :: '-' :: b) = a :: splitSeg b
  | [], b, _, _ => by simp [splitSeg]
  | [c], b, _, hlast => by
    have hc : c ≠ '-' := by simpa using hlast
    have hne : ¬(c = '-' ∧ ('-' : Char) = '-') := fun ⟨h, _⟩ => hc h
    simp [splitSeg, hne, hc]
  | c :: c' :: a', b, hnd, hlast => by
    have h1 : ¬(c = '-' ∧ c' = '-') := by
      intro ⟨hc, hd⟩
      simp [noDD, hc, hd] at hnd
    have h2 : noDD (c' :: a') = true := by
      simp only [noDD, Bool.and_eq_true] at hnd
      exact hnd.2
    have h3 : (c' :: a').getLast? ≠ some '-' := by
      simpa [List.getLast?_cons_cons] using hlast
    have ih := splitSeg_append_dd (c' :: a') b h2 h3
    rw [List.cons_append] at ih ⊢
    rw [List.cons_append]
    simp only [splitSeg, h1, false_and, if_false]
    rw [ih]

/-- A dash-free list is a single dash-segment. -/
theorem splitDash_of_dashfree : ∀ a : List Char, '-' ∉ a → splitDash a = [a]
  | [], _ => rfl
  | c :: rest, h => by
    have hc : c ≠ '-' := fun hc => h (hc ▸ List.mem_cons_self c rest)
    have ih := splitDash_of_dashfree rest (fun hx => h (List.mem_cons_of_mem c hx))
    simp [splitDash, hc, ih]

/-- A dash-free block followed by a dash splits off exactly. -/
theorem splitDash_append :
    ∀ (m l : List Char), '-' ∉ m → splitDash (m ++ '-' :: l) = m :: splitDash l
  | [], l, _ => by simp [splitDash]
  | c :: m', l, h => by
    have hc : c ≠ '-' := fun hc => h (hc ▸ List.mem_cons_self c m')
    have ih := splitDash_append m' l (fun hx => h (List.mem_cons_of_mem c hx))
    rw [List.cons_append]
    simp only [splitDash, hc, if_false]
    rw [ih]

/-- Splitting on dashes and rejoining with dashes is the identity. -/
theorem joinDash_splitDash : ∀ l : List Char, joinDash (splitDash l) = l
  | [] => rfl
  | c :: rest => by
    have ih := joinDash_splitDash rest
    by_cases hc : c = '-'
    · subst hc
      simp only [splitDash, if_pos rfl]
      cases h : splitDash rest with
      | nil => exact absurd h (splitDash_ne_nil rest)
      | cons s ss =>
        rw [h] at ih
        simp [joinDash, ← ih]
    · simp only [splitDash, hc, if_false]
      cases h : splitDash rest with
      | nil => exact absurd h (splitDash_ne_nil rest)
      | cons s ss =>
        rw [h] at ih
        cases ss with
        | nil => simp [joinDash] at ih ⊢; rw [ih]
        | cons s' ss' =>
          simp only [joinDash] at ih ⊢
          rw [List.cons_append, ih]

/-- Dash-free lists have no double dash. -/
theorem noDD_of_dashfree : ∀ a : List Char, '-' ∉ a → noDD a = true
  | [], _ => rfl
  | [c], _ => rfl
  | c :: d :: rest, h => by
    have hc : c ≠ '-' := fun hc => h (hc ▸ List.mem_cons_self _ _)
    have ih := noDD_of_dashfree (d :: rest) (fun hx => h (List.mem_cons_of_mem c hx))
    simp [noDD, ih, hc]

/-- Prepending a dash preserves `noDD` when the list does not start with a
dash. -/
theorem noDD_cons_dash (z : List Char) (hh : z.head? ≠ some '-')
    (hz : noDD z = true) : noDD ('-' :: z) = true := by
  cases z with
  | nil => rfl
  | cons e z' =>
    have he : e ≠ '-' := by simpa using hh
    simp [noDD, he, hz]

/-- `noDD` is preserved by append when the junction is clean. -/
theorem noDD_append :
    ∀ (a b : List Char), noDD a = true → noDD b = true →
      ¬(a.getLast? = some '-' ∧ b.head? = some '-') → noDD (a ++ b) = true
  | [], b, _, hb, _ => hb
  | [c], b, _, hb, hj => by
    cases b with
    | nil => rfl
    | cons e b' =>
      have : ¬(c = '-' ∧ e = '-') := by
        intro ⟨hc, he⟩
        exact hj (by simp [hc, he])
      simp [noDD, this, hb]
      tauto
  | c :: c' :: a', b, ha, hb, hj => by
    have h1 : ¬(c = '-' ∧ c' = '-') := by
      intro ⟨hc, hd⟩
      simp [noDD, hc, hd] at ha
    have h2 : noDD (c' :: a') = true := by
      simp only [noDD, Bool.and_eq_true] at ha
      exact ha.2
    have hj' : ¬((c' :: a').getLast? = some '-' ∧ b.head? = some '-') := by
      simpa [List.getLast?_cons_cons] using hj
    have ih := noDD_append (c' :: a') b h2 hb hj'
    rw [List.cons_append] at ih ⊢
    rw [List.cons_append]
    simp [noDD, h1, ih]
    tauto

/-- A single remaining part resolves to a final path component whether or
not the probe succeeds. -/
theorem probeLoop_single (fs : List Char → Bool) (conf m : List Char) :
    probeLoop fs conf [m] = conf ++ '/' :: m := by
  unfold probeLoop
  split
  · rfl
  · simp [joinDash]

/-- A successful probe extends the confirmed path. -/
theorem probeLoop_step (fs : List Char → Bool) (conf m : List Char)
    (rest : List (List Char)) (h : fs (conf ++ '/' :: m) = true) :
    probeLoop fs conf (m :: rest) = probeLoop fs (conf ++ '/' :: m) rest := by
  simp [probeLoop, h]

/-- A failing probe joins all remaining parts as the leaf. -/
theorem probeLoop_fail (fs : List Char → Bool) (conf f0 : List Char)
    (rest : List (List Char)) (h : fs (conf ++ '/' :: f0) = false) :
    probeLoop fs conf (f0 :: rest) = conf ++ '/' :: joinDash (f0 :: rest) := by
  cases rest with
  | nil => exact probeLoop_single fs conf f0
  | cons f1 fr => simp [probeLoop, h]

/-- Appending one component to a non-empty component list. -/
theorem interSlash_append_singleton :
    ∀ (l : List String), l ≠ [] → ∀ m : String,
      interSlash (l ++ [m]) = interSlash l ++ '/' :: m.data := by
  intro l
  induction l with
  | nil => intro h; exact absurd rfl h
  | cons c l' ih =>
    intro _ m
    cases l' with
    | nil => rfl
    | cons c' l'' =>
      show interSlash (c :: c' :: (l'' ++ [m])) = interSlash (c :: c' :: l'') ++ '/' :: m.data
      rw [interSlash_cons_cons, interSlash_cons_cons]
      rw [show c' :: (l'' ++ [m]) = (c' :: l'') ++ [m] from rfl]
      rw [ih (by simp) m]
      simp

/-- Appending components to a non-empty component list. -/
theorem interSlash_append_slashJoin :
    ∀ (r l : List String), l ≠ [] →
      interSlash (l ++ r) = interSlash l ++ slashJoin r := by
  intro r
  induction r with
  | nil => intro l _; simp [slashJoin]
  | cons x r' ih =>
    intro l hl
    rw [show l ++ x :: r' = (l ++ [x]) ++ r' by simp]
    rw [ih (l ++ [x]) (by simp), interSlash_append_singleton l hl x]
    simp [slashJoin]

/-- `dropWhile` is `drop` past the `takeWhile` prefix. -/
theorem dropWhile_eq_drop_len {α : Type} (p : α → Bool) :
    ∀ l : List α, l.dropWhile p = l.drop (l.takeWhile p).length := by
  intro l
  induction l with
  | nil => rfl
  | cons c l' ih =>
    by_cases hc : p c
    · simp [List.dropWhile_cons, List.takeWhile_cons, hc, ih]
    · simp [List.dropWhile_cons, List.takeWhile_cons, hc]

/-- The head of a `dropWhile` residue fails the predicate. -/
theorem dropWhile_head_false {α : Type} (p : α → Bool) :
    ∀ (l : List α) (x : α) (xs : List α), l.dropWhile p = x :: xs → p x = false := by
  intro l
  induction l with
  | nil => intro x xs h; simp at h
  | cons c l' ih =>
    intro x xs h
    by_cases hc : p c
    · rw [List.dropWhile_cons, if_pos hc] at h
      exact ih x xs h
    · rw [List.dropWhile_cons, if_neg hc] at h
      cases h
      simpa using hc

/-- Splitting the encoding of a plain (non-hidden) component run on
dashes recovers the components, the possibly-dashed leaf fragmented. -/
theorem splitDash_encTail :
    ∀ (l : List String) (pre : List Char), '-' ∉ pre →
      (∀ c ∈ l, isHiddenComp c = false) →
      (∀ c ∈ l.dropLast, '-' ∉ c.data) →
      splitDash (pre ++ encTail l)
        = pre :: (l.dropLast.map String.data
            ++ match l.getLast? with
               | none => []
               | some leaf => splitDash leaf.data)
  | [], pre, hpre, _, _ => by
    simp [encTail, splitDash_of_dashfree pre hpre]
  | [c], pre, hpre, hnh, _ => by
    have hc : isHiddenComp c = false := hnh c (List.mem_cons_self _ _)
    simp only [encTail, hc, if_false, List.append_nil, Bool.false_eq_true]
    rw [splitDash_append pre c.data hpre]
    simp
  | c :: c' :: l'', pre, hpre, hnh, hmid => by
    have hc : isHiddenComp c = false := hnh c (List.mem_cons_self _ _)
    have hcd : '-' ∉ c.data := hmid c (by simp)
    have ih := splitDash_encTail (c' :: l'') c.data hcd
      (fun x hx => hnh x (List.mem_cons_of_mem c hx))
      (fun x hx => hmid x (by
        rw [List.dropLast_cons₂]
        exact List.mem_cons_of_mem c hx))
    rw [show encTail (c :: c' :: l'') = '-' :: (c.data ++ encTail (c' :: l'')) by
      simp [encTail, hc]]
    rw [splitDash_append pre _ hpre, ih]
    simp [List.getLast?_cons_cons]

/-- A last element is a member. -/
theorem getLast?_mem_self {α : Type} :
    ∀ (l : List α) (a : α), l.getLast? = some a → a ∈ l
  | [], a, h => by simp at h
  | [x], a, h => by
    simp only [List.getLast?_singleton, Option.some_inj] at h
    simp [h]
  | x :: y :: l, a, h => by
    rw [List.getLast?_cons_cons] at h
    exact List.mem_cons_of_mem x (getLast?_mem_self (y :: l) a h)

/-- A dash-free list never ends in a dash. -/
theorem getLast?_ne_dash_of_dashfree (l : List Char) (h : '-' ∉ l) :
    l.getLast? ≠ some '-' := by
  intro hl
  exact h (getLast?_mem_self l '-' hl)

/-- Appending the encoding of non-hidden, dash-free components to a
dash-free block keeps the result double-dash free and not dash-ended. -/
theorem noDD_encTail_plain :
    ∀ (l : List String) (x : List Char), '-' ∉ x →
      (∀ c ∈ l, c.data ≠ [] ∧ '-' ∉ c.data ∧ isHiddenComp c = false) →
      noDD (x ++ encTail l) = true ∧ (x ++ encTail l).getLast? ≠ some '-'
  | [], x, hx, _ => by
    refine ⟨by simpa [encTail] using noDD_of_dashfree x hx, ?_⟩
    simpa [encTail] using getLast?_ne_dash_of_dashfree x hx
  | c :: l', x, hx, hl => by
    obtain ⟨hcne, hcdf, hchid⟩ := hl c (List.mem_cons_self _ _)
    obtain ⟨ihn, ihl⟩ := noDD_encTail_plain l' c.data hcdf
      (fun y hy => hl y (List.mem_cons_of_mem c hy))
    have hzh : (c.data ++ encTail l').head? ≠ some '-' := by
      cases hd : c.data with
      | nil => exact absurd hd hcne
      | cons e t =>
        have he : e ≠ '-' := fun he => hcdf (by rw [hd, he]; exact List.mem_cons_self _ _)
        simp [hd, he]
    have hzne : (c.data ++ encTail l') ≠ [] := by
      intro h0
      exact hcne (List.append_eq_nil.mp h0).1
    have hstep : x ++ encTail (c :: l') = x ++ '-' :: (c.data ++ encTail l') := by
      simp [encTail, hchid]
    rw [hstep]
    constructor
    · refine noDD_append x ('-' :: (c.data ++ encTail l'))
        (noDD_of_dashfree x hx) (noDD_cons_dash _ hzh ihn) ?_
      intro ⟨hlast, _⟩
      exact getLast?_ne_dash_of_dashfree x hx hlast
    · rw [List.getLast?_append_of_ne_nil x (by simp)]
      cases hz : c.data ++ encTail l' with
      | nil => exact absurd hz hzne
      | cons e z' =>
        rw [List.getLast?_cons_cons]
        rw [hz] at ihl
        exact ihl

/-- A hidden-led run of non-empty dash-free components has a clean
segment body. -/
theorem segBody_good (g : List String)
    (hne : ∀ c ∈ g, c.data ≠ [] ∧ '-' ∉ c.data)
    (hplains : ∀ c ∈ g.tail, isHiddenComp c = false) :
    noDD (segBody g) = true ∧ (segBody g).getLast? ≠ some '-' := by
  cases g with
  | nil => exact ⟨rfl, by simp [segBody]⟩
  | cons h plains =>
    have hdf : '-' ∉ h.data.tail := by
      intro hx
      exact (hne h (List.mem_cons_self _ _)).2 (List.mem_of_mem_tail hx)
    have := noDD_encTail_plain plains h.data.tail hdf
      (fun c hc => ⟨(hne c (List.mem_cons_of_mem h hc)).1,
        (hne c (List.mem_cons_of_mem h hc)).2, hplains c hc⟩)
    exact this

/-- The encoding of the hidden-led remainder is the concatenation of its
runs' double-dash segments. -/
theorem encTail_groupHidden :
    ∀ l : List String,
      (∀ x xs, l = x :: xs → isHiddenComp x = true) →
      encTail l = (groupHidden l).flatMap (fun g => '-' :: '-' :: segBody g)
  | [], _ => by simp [groupHidden, encTail]
  | c :: rest, hhead => by
    have hc : isHiddenComp c = true := hhead c rest rfl
    have hrec := encTail_groupHidden (rest.dropWhile (fun x => !isHiddenComp x))
      (by
        intro x xs hx
        have := dropWhile_head_false (fun x => !isHiddenComp x) rest x xs hx
        simpa using this)
    rw [groupHidden, List.flatMap_cons]
    rw [show encTail (c :: rest) = ('-' :: '-' :: c.data.tail) ++ encTail rest by
      simp [encTail, hc]]
    conv_lhs => rw [show rest
      = rest.takeWhile (fun x => !isHiddenComp x)
        ++ rest.dropWhile (fun x => !isHiddenComp x) from
      (List.takeWhile_append_dropWhile ..).symm]
    rw [encTail_append, hrec]
    simp [segBody]
termination_by l => l.length
decreasing_by
  simp only [List.length_cons]
  exact Nat.lt_succ_of_le (List.dropWhile_sublist _).length_le

/-- Splitting the full encoded stream on double dashes yields the leading
segment followed by one segment per hidden-led run. -/
theorem splitSeg_stream :
    ∀ (groups : List (List String)) (A : List Char),
      noDD A = true → A.getLast? ≠ some '-' →
      (∀ g ∈ groups, noDD (segBody g) = true ∧ (segBody g).getLast? ≠ some '-') →
      splitSeg (A ++ groups.flatMap (fun g => '-' :: '-' :: segBody g))
        = A :: groups.map segBody := by
  intro groups
  induction groups with
  | nil =>
    intro A hA _ _
    simpa using splitSeg_of_noDD A hA
  | cons g gs ih =>
    intro A hA hAl hg
    rw [List.flatMap_cons,
      show ('-' :: '-' :: segBody g) ++ gs.flatMap (fun g => '-' :: '-' :: segBody g)
        = '-' :: '-' :: (segBody g ++ gs.flatMap (fun g => '-' :: '-' :: segBody g))
        from rfl,
      splitSeg_append_dd A _ hA hAl,
      ih (segBody g) (hg g (List.mem_cons_self _ _)).1 (hg g (List.mem_cons_self _ _)).2
        (fun x hx => hg x (List.mem_cons_of_mem g hx))]
    simp

/-- The hidden-led runs concatenate back to the original list. -/
theorem groupHidden_join : ∀ l : List String, (groupHidden l).flatten = l
  | [] => by simp [groupHidden]
  | c :: rest => by
    have ih := groupHidden_join (rest.dropWhile (fun x => !isHiddenComp x))
    rw [groupHidden]
    simp only [List.flatten_cons, ih]
    simp [List.takeWhile_append_dropWhile]
termination_by l => l.length
decreasing_by
  simp only [List.length_cons]
  exact Nat.lt_succ_of_le (List.dropWhile_sublist _).length_le

/-- Each hidden-led run starts with a hidden component, continues with
non-hidden ones, and draws its members from the original list. -/
theorem groupHidden_props :
    ∀ l : List String,
      (∀ x xs, l = x :: xs → isHiddenComp x = true) →
      ∀ g ∈ groupHidden l,
        ∃ h plains, g = h :: plains ∧ isHiddenComp h = true
          ∧ (∀ c ∈ plains, isHiddenComp c = false)
          ∧ (∀ c ∈ g, c ∈ l)
  | [], _ => by simp [groupHidden]
  | c :: rest, hhead => by
    intro g hgmem
    rw [groupHidden] at hgmem
    rcases List.mem_cons.mp hgmem with rfl | hgmem'
    · refine ⟨c, rest.takeWhile (fun x => !isHiddenComp x), rfl, hhead c rest rfl, ?_, ?_⟩
      · intro x hx
        have := List.mem_takeWhile_imp hx
        simpa using this
      · intro x hx
        rcases List.mem_cons.mp hx with rfl | hx'
        · exact List.mem_cons_self _ _
        · exact List.mem_cons_of_mem c ((List.takeWhile_sublist _).subset hx')
    · obtain ⟨h, plains, hg, hh, hp, hsub⟩ :=
        groupHidden_props (rest.dropWhile (fun x => !isHiddenComp x))
          (by
            intro x xs hx
            have := dropWhile_head_false (fun x => !isHiddenComp x) rest x xs hx
            simpa using this) g hgmem'
      exact ⟨h, plains, hg, hh, hp,
        fun x hx => List.mem_cons_of_mem c ((List.dropWhile_sublist _).subset (hsub x hx))⟩
termination_by l => l.length
decreasing_by
  simp only [List.length_cons]
  exact Nat.lt_succ_of_le (List.dropWhile_sublist _).length_le

/-- The subfolder fold appends one slash-part per element. -/
theorem foldl_slash :
    ∀ (parts : List (List Char)) (acc : List Char),
      parts.foldl (fun a p => a ++ '/' :: p) acc
        = acc ++ parts.flatMap (fun p => '/' :: p) := by
  intro parts
  induction parts with
  | nil => intro acc; simp
  | cons p parts' ih =>
    intro acc
    rw [List.foldl_cons, ih, List.flatMap_cons]
    simp

/-- A hidden component's characters are a dot before its tail. -/
theorem isHiddenComp_data (c : String) (h : isHiddenComp c = true) :
    c.data = '.' :: c.data.tail := by
  unfold isHiddenComp at h
  split at h
  · next heq => rw [heq]; rfl
  · simp at h

/-- Slash-chunks of raw component data. -/
theorem flatMap_map_data (l : List String) :
    (l.map String.data).flatMap (fun p => '/' :: p) = slashJoin l := by
  induction l with
  | nil => simp [slashJoin]
  | cons q qs ihq =>
    simp only [slashJoin, List.map_cons, List.flatMap_cons] at ihq ⊢
    rw [ihq]

/-- Rebuilding hidden-led runs from their double-dash segment bodies
appends exactly the runs' components as path segments. -/
theorem hiddenAppend_map_segBody :
    ∀ (groups : List (List String)) (path : List Char),
      (∀ g ∈ groups, ∃ h plains, g = h :: plains ∧ isHiddenComp h = true
        ∧ (∀ c ∈ plains, isHiddenComp c = false)
        ∧ (∀ c ∈ g, c.data ≠ [] ∧ '-' ∉ c.data)) →
      hiddenAppendChars path (groups.map segBody)
        = path ++ groups.flatMap slashJoin := by
  intro groups
  induction groups with
  | nil => intro path _; simp [hiddenAppendChars]
  | cons g gs ih =>
    intro path hcond
    obtain ⟨h, plains, rfl, hh, hpl, hgood⟩ := hcond g (List.mem_cons_self _ _)
    have hhdf : '-' ∉ h.data.tail := by
      intro hx
      exact (hgood h (List.mem_cons_self _ _)).2 (List.mem_of_mem_tail hx)
    have hsplit := splitDash_encTail plains h.data.tail hhdf hpl
      (fun c hc => (hgood c (List.mem_cons_of_mem h ((List.dropLast_sublist _).subset hc))).2)
    have hdot : ('.' : Char) :: h.data.tail = h.data := (isHiddenComp_data h hh).symm
    rw [List.map_cons, hiddenAppendChars]
    rw [show segBody (h :: plains) = h.data.tail ++ encTail plains from rfl]
    cases hpl_nil : plains with
    | nil =>
      subst hpl_nil
      rw [hsplit]
      simp only [List.dropLast_nil, List.map_nil, List.getLast?_nil,
        List.nil_append, List.foldl_nil]
      rw [hdot]
      rw [ih _ (fun x hx => hcond x (List.mem_cons_of_mem _ hx)), List.flatMap_cons]
      simp [slashJoin]
    | cons p ps =>
      have hplne : plains ≠ [] := by rw [hpl_nil]; simp
      rw [← hpl_nil]
      obtain ⟨leaf, hleaf⟩ : ∃ leaf, plains.getLast? = some leaf := by
        cases hgl : plains.getLast? with
        | none => rw [List.getLast?_eq_none_iff] at hgl; exact absurd hgl hplne
        | some x => exact ⟨x, rfl⟩
      have hleafdf : '-' ∉ leaf.data :=
        (hgood leaf (List.mem_cons_of_mem h (getLast?_mem_self plains leaf hleaf))).2
      have hsplit2 : splitDash (h.data.tail ++ encTail plains)
          = h.data.tail :: (List.map String.data plains.dropLast ++ [leaf.data]) := by
        rw [hsplit, hleaf]
        show h.data.tail :: (List.map String.data plains.dropLast ++ splitDash leaf.data) = _
        rw [splitDash_of_dashfree leaf.data hleafdf]
      rw [hsplit2]
      have hmaps : List.map String.data plains.dropLast ++ [leaf.data]
          = List.map String.data plains := by
        rw [List.map_dropLast]
        have hgl : (List.map String.data plains).getLast? = some leaf.data := by
          rw [List.getLast?_map, hleaf]; rfl
        exact List.dropLast_append_getLast? leaf.data hgl
      rw [hmaps]
      show hiddenAppendChars
          (List.foldl (fun acc part => acc ++ '/' :: part)
            (path ++ '/' :: '.' :: h.data.tail) (List.map String.data plains))
          (List.map segBody gs)
        = path ++ ((h :: plains) :: gs).flatMap slashJoin
      rw [foldl_slash, flatMap_map_data]
      rw [hdot]
      rw [ih _ (fun x hx => hcond x (List.mem_cons_of_mem _ hx)), List.flatMap_cons]
      have hsl : slashJoin (h :: plains) = '/' :: h.data ++ slashJoin plains := by
        simp [slashJoin]
      rw [hsl]
      simp

/-- While every probed prefix directory exists, the probe loop walks the
middle parts one by one into the confirmed path. -/
theorem probeLoop_walk (fs : List Char → Bool) :
    ∀ (mids : List String) (done : List String), done ≠ [] →
      (∀ j, j < mids.length →
        fs ('/' :: interSlash (done ++ mids.take (j + 1))) = true) →
      ∀ rest : List (List Char),
        probeLoop fs ('/' :: interSlash done) (mids.map String.data ++ rest)
          = probeLoop fs ('/' :: interSlash (done ++ mids)) rest := by
  intro mids
  induction mids with
  | nil => intro done _ _ rest; simp
  | cons m ms ih =>
    intro done hdone hfs rest
    rw [List.map_cons, List.cons_append]
    have h0 : fs (('/' :: interSlash done) ++ '/' :: m.data) = true := by
      have h1 := hfs 0 (by simp)
      simp only [List.take_succ_cons, List.take_zero] at h1
      rw [interSlash_append_singleton done hdone m] at h1
      exact h1
    rw [probeLoop_step fs _ m.data _ h0]
    rw [show (('/' :: interSlash done) : List Char) ++ '/' :: m.data
        = '/' :: interSlash (done ++ [m]) by
      rw [interSlash_append_singleton done hdone m]; rfl]
    have hfs' : ∀ j, j < ms.length →
        fs ('/' :: interSlash ((done ++ [m]) ++ ms.take (j + 1))) = true := by
      intro j hj
      have h2 := hfs (j + 1) (by simpa using Nat.succ_lt_succ hj)
      rw [List.take_succ_cons] at h2
      rw [show done ++ m :: ms.take (j + 1) = (done ++ [m]) ++ ms.take (j + 1) by
        simp] at h2
      exact h2
    rw [ih (done ++ [m]) (by simp) hfs' rest]
    rw [show (done ++ [m]) ++ ms = done ++ m :: ms by simp]

/-- Concatenating the slash-chunks run by run is chunking the flattened
list. -/
theorem slashJoin_flatten :
    ∀ gs : List (List String), gs.flatMap slashJoin = slashJoin gs.flatten := by
  intro gs
  induction gs with
  | nil => simp [slashJoin]
  | cons g gs' ih =>
    simp [slashJoin, List.flatMap_cons, List.flatten_cons, List.flatMap_append, ih]

/-- A dash-free block does not start with a dash. -/
theorem head?_ne_dash_of_dashfree (l : List Char) (h : '-' ∉ l) :
    l.head? ≠ some '-' := by
  intro hl
  cases l with
  | nil => simp at hl
  | cons e t =>
    simp only [List.head?_cons, Option.some.injEq] at hl
    exact h (by rw [hl]; exact List.mem_cons_self _ _)

/-- The encoded leading segment is double-dash free and ends with the
last character of the leaf component. -/
theorem encA_good :
    ∀ (c0 : String) (tw : List String),
      (∀ c ∈ c0 :: tw, c.data ≠ []) →
      (∀ c ∈ c0 :: tw, isHiddenComp c = false) →
      (∀ c ∈ (c0 :: tw).dropLast, '-' ∉ c.data) →
      (∀ leaf, (c0 :: tw).getLast? = some leaf →
        '-' ∉ leaf.data ∨ (noDD leaf.data = true ∧ leaf.data.head? ≠ some '-')) →
      noDD (c0.data ++ encTail tw) = true
      ∧ ∀ leaf, (c0 :: tw).getLast? = some leaf →
          (c0.data ++ encTail tw).getLast? = leaf.data.getLast? := by
  intro c0 tw hne hhid hmid hleaf
  cases tw with
  | nil =>
    have hl0 : ([c0] : List String).getLast? = some c0 := rfl
    have hn : noDD c0.data = true := by
      rcases hleaf c0 hl0 with hdf | ⟨hn, _⟩
      · exact noDD_of_dashfree c0.data hdf
      · exact hn
    refine ⟨by simpa [encTail] using hn, ?_⟩
    intro leaf hlf
    rw [hl0] at hlf
    cases hlf
    simp [encTail]
  | cons t1 tw' =>
    obtain ⟨leaf, hlf⟩ : ∃ leaf, (t1 :: tw').getLast? = some leaf := by
      cases hgl : (t1 :: tw').getLast? with
      | none => rw [List.getLast?_eq_none_iff] at hgl; simp at hgl
      | some x => exact ⟨x, rfl⟩
    have hlf0 : (c0 :: t1 :: tw').getLast? = some leaf := by
      rw [show c0 :: t1 :: tw' = [c0] ++ (t1 :: tw') from rfl,
        List.getLast?_append_of_ne_nil [c0] (by simp), hlf]
    have hdrop : (c0 :: t1 :: tw').dropLast = c0 :: (t1 :: tw').dropLast :=
      List.dropLast_cons₂ ..
    have hc0df : '-' ∉ c0.data :=
      hmid c0 (by rw [hdrop]; exact List.mem_cons_self _ _)
    have htw : (t1 :: tw').dropLast ++ [leaf] = t1 :: tw' :=
      List.dropLast_append_getLast? leaf hlf
    have hleafmem : leaf ∈ c0 :: t1 :: tw' :=
      getLast?_mem_self _ leaf hlf0
    have hleafhid : isHiddenComp leaf = false := hhid leaf hleafmem
    have hleafne : leaf.data ≠ [] := hne leaf hleafmem
    obtain ⟨hBn, hBl⟩ := noDD_encTail_plain ((t1 :: tw').dropLast) c0.data hc0df
      (fun c hc => by
        have hc' : c ∈ (c0 :: t1 :: tw').dropLast := by
          rw [hdrop]; exact List.mem_cons_of_mem c0 hc
        have hcm : c ∈ c0 :: t1 :: tw' := (List.dropLast_sublist _).subset hc'
        exact ⟨hne c hcm, hmid c hc', hhid c hcm⟩)
    obtain ⟨hLn, hLh⟩ : noDD leaf.data = true ∧ leaf.data.head? ≠ some '-' := by
      rcases hleaf leaf hlf0 with hdf | h2
      · exact ⟨noDD_of_dashfree leaf.data hdf, head?_ne_dash_of_dashfree leaf.data hdf⟩
      · exact h2
    have hA : c0.data ++ encTail (t1 :: tw')
        = (c0.data ++ encTail ((t1 :: tw').dropLast)) ++ '-' :: leaf.data := by
      conv_lhs => rw [← htw]
      rw [encTail_append]
      rw [show encTail [leaf] = '-' :: leaf.data by simp [encTail, hleafhid]]
      simp
    rw [hA]
    constructor
    · refine noDD_append _ _ hBn (noDD_cons_dash leaf.data hLh hLn) ?_
      intro ⟨hlast, _⟩
      exact hBl hlast
    · intro leaf' hlf'
      rw [hlf0] at hlf'
      cases hlf'
      rw [List.getLast?_append_of_ne_nil _ (by simp)]
      cases hld : leaf.data with
      | nil => exact absurd hld hleafne
      | cons e t => rw [List.getLast?_cons_cons]

/-- Resolving the encoded leading segment against a filesystem that
confirms every intermediate directory and rejects the dashed leaf's first
fragment reconstructs the leading components. -/
theorem resolveSeg_encoded (fs : List Char → Bool) (c0 : String) (tw : List String)
    (hne : ∀ c ∈ c0 :: tw, c.data ≠ [])
    (hhid : ∀ c ∈ c0 :: tw, isHiddenComp c = false)
    (hmid : ∀ c ∈ (c0 :: tw).dropLast, '-' ∉ c.data)
    (hprobe : ∀ j, j < tw.dropLast.length →
      fs ('/' :: interSlash (c0 :: tw.dropLast.take (j + 1))) = true)
    (hleafp : ∀ leaf, (c0 :: tw).getLast? = some leaf → '-' ∈ leaf.data →
      fs ('/' :: interSlash ((c0 :: tw).dropLast
        ++ [⟨(splitDash leaf.data).headD []⟩])) = false)
    (hc0df1 : tw = [] → '-' ∉ c0.data) :
    resolveSegChars fs (c0.data ++ encTail tw) = '/' :: interSlash (c0 :: tw) := by
  cases tw with
  | nil =>
    have hc0 := hc0df1 rfl
    show resolveSegChars fs (c0.data ++ encTail []) = '/' :: interSlash [c0]
    rw [show encTail [] = [] from rfl, List.append_nil]
    unfold resolveSegChars
    rw [splitDash_of_dashfree c0.data hc0]
    show probeLoop fs ('/' :: c0.data) [] = '/' :: interSlash [c0]
    rfl
  | cons t1 tw' =>
    obtain ⟨leaf, hlf⟩ : ∃ leaf, (t1 :: tw').getLast? = some leaf := by
      cases hgl : (t1 :: tw').getLast? with
      | none => rw [List.getLast?_eq_none_iff] at hgl; simp at hgl
      | some x => exact ⟨x, rfl⟩
    have hlf0 : (c0 :: t1 :: tw').getLast? = some leaf := by
      rw [show c0 :: t1 :: tw' = [c0] ++ (t1 :: tw') from rfl,
        List.getLast?_append_of_ne_nil [c0] (by simp), hlf]
    have hdrop : (c0 :: t1 :: tw').dropLast = c0 :: (t1 :: tw').dropLast :=
      List.dropLast_cons₂ ..
    have hc0df : '-' ∉ c0.data :=
      hmid c0 (by rw [hdrop]; exact List.mem_cons_self _ _)
    have htw : (t1 :: tw').dropLast ++ [leaf] = t1 :: tw' :=
      List.dropLast_append_getLast? leaf hlf
    have hsplit := splitDash_encTail (t1 :: tw') c0.data hc0df
      (fun c hc => hhid c (List.mem_cons_of_mem c0 hc))
      (fun c hc => hmid c (by
        rw [hdrop]
        exact List.mem_cons_of_mem c0 hc))
    have hsplit2 : splitDash (c0.data ++ encTail (t1 :: tw'))
        = c0.data :: ((t1 :: tw').dropLast.map String.data ++ splitDash leaf.data) := by
      rw [hsplit, hlf]
    unfold resolveSegChars
    rw [hsplit2]
    show probeLoop fs ('/' :: c0.data)
        ((t1 :: tw').dropLast.map String.data ++ splitDash leaf.data)
      = '/' :: interSlash (c0 :: t1 :: tw')
    rw [show ('/' :: c0.data : List Char) = '/' :: interSlash [c0] from rfl]
    rw [probeLoop_walk fs ((t1 :: tw').dropLast) [c0] (by simp)
      (fun j hj => by
        have := hprobe j hj
        simpa using this)]
    rw [show ([c0] ++ (t1 :: tw').dropLast : List String)
        = c0 :: (t1 :: tw').dropLast from rfl]
    by_cases hdash : '-' ∈ leaf.data
    · cases hsd : splitDash leaf.data with
      | nil => exact absurd hsd (splitDash_ne_nil leaf.data)
      | cons p0 ps =>
        have hfail := hleafp leaf hlf0 hdash
        rw [hdrop, hsd] at hfail
        rw [interSlash_append_singleton (c0 :: (t1 :: tw').dropLast) (by simp)] at hfail
        have hfail' : fs (('/' :: interSlash (c0 :: (t1 :: tw').dropLast)) ++ '/' :: p0)
            = false := by
          simpa using hfail
        rw [probeLoop_fail fs _ p0 ps hfail']
        rw [show joinDash (p0 :: ps) = leaf.data by
          rw [← hsd]; exact joinDash_splitDash leaf.data]
        rw [show ('/' : Char) :: interSlash (c0 :: (t1 :: tw').dropLast) ++ '/' :: leaf.data
            = '/' :: interSlash ((c0 :: (t1 :: tw').dropLast) ++ [leaf]) by
          rw [interSlash_append_singleton (c0 :: (t1 :: tw').dropLast) (by simp) leaf]; rfl]
        rw [show (c0 :: (t1 :: tw').dropLast) ++ [leaf] = c0 :: t1 :: tw' by
          rw [List.cons_append, htw]]
    · rw [splitDash_of_dashfree leaf.data hdash]
      rw [probeLoop_single]
      rw [show ('/' : Char) :: interSlash (c0 :: (t1 :: tw').dropLast) ++ '/' :: leaf.data
          = '/' :: interSlash ((c0 :: (t1 :: tw').dropLast) ++ [leaf]) by
        rw [interSlash_append_singleton (c0 :: (t1 :: tw').dropLast) (by simp) leaf]; rfl]
      rw [show (c0 :: (t1 :: tw').dropLast) ++ [leaf] = c0 :: t1 :: tw' by
        rw [List.cons_append, htw]]

/-- C5: for every representable absolute path without dash/hidden-folder
ambiguity — each intermediate directory of the plain leading run probes
as existing, components are non-empty and slash-free, components from the
first hidden one on are dash-free, and a dashed leaf is unambiguous —
decoding the encoded directory name returns the path:
`convert_dir_name_to_path fs (convert_path_to_dir_name p) = p`. -/
theorem convert_dir_name_roundtrip (fs : String → Bool) (c0 : String)
    (cs : List String) (h : Unambiguous fs c0 cs) :
    convert_dir_name_to_path fs (convert_path_to_dir_name (pathOfComps (c0 :: cs)))
      = pathOfComps (c0 :: cs) := by
  obtain ⟨hgood, hc0, hrest, hmid, hprobe, hleafU⟩ := h
  have htk : (c0 :: cs).takeWhile (fun c => !isHiddenComp c)
      = c0 :: cs.takeWhile (fun c => !isHiddenComp c) := by
    rw [List.takeWhile_cons]
    simp [hc0]
  have hdw : (c0 :: cs).drop
        ((c0 :: cs).takeWhile (fun c => !isHiddenComp c)).length
      = cs.dropWhile (fun c => !isHiddenComp c) := by
    rw [← dropWhile_eq_drop_len, List.dropWhile_cons]
    simp [hc0]
  rw [hdw] at hrest hleafU
  rw [htk] at hmid hprobe hleafU
  set tw := cs.takeWhile (fun c => !isHiddenComp c) with htwdef
  set dw := cs.dropWhile (fun c => !isHiddenComp c) with hdwdef
  have hcs : tw ++ dw = cs := by
    rw [htwdef, hdwdef]
    exact List.takeWhile_append_dropWhile ..
  have htwsub : ∀ c ∈ tw, c ∈ cs := by
    intro c hc
    rw [htwdef] at hc
    exact (List.takeWhile_sublist _).subset hc
  have hdwsub : ∀ c ∈ dw, c ∈ cs := by
    intro c hc
    rw [hdwdef] at hc
    exact (List.dropWhile_sublist _).subset hc
  have hgood0 : ∀ c ∈ c0 :: tw, c.data ≠ [] ∧ '/' ∉ c.data := by
    intro c hc
    rcases List.mem_cons.mp hc with rfl | hc'
    · exact hgood c (List.mem_cons_self _ _)
    · exact hgood c (List.mem_cons_of_mem _ (htwsub c hc'))
  have hne0 : ∀ c ∈ c0 :: tw, c.data ≠ [] := fun c hc => (hgood0 c hc).1
  have hhid0 : ∀ c ∈ c0 :: tw, isHiddenComp c = false := by
    intro c hc
    rcases List.mem_cons.mp hc with rfl | hc'
    · exact hc0
    · rw [htwdef] at hc'
      simpa using List.mem_takeWhile_imp hc'
  have hdwhead : ∀ x xs, dw = x :: xs → isHiddenComp x = true := by
    intro x xs hx
    rw [hdwdef] at hx
    have := dropWhile_head_false (fun c => !isHiddenComp c) cs x xs hx
    simpa using this
  obtain ⟨leaf, hlf⟩ : ∃ leaf, (c0 :: tw).getLast? = some leaf := by
    cases hgl : (c0 :: tw).getLast? with
    | none => rw [List.getLast?_eq_none_iff] at hgl; simp at hgl
    | some x => exact ⟨x, rfl⟩
  have hlfd : (c0 :: tw).getLastD "" = leaf := by
    rw [List.getLastD_eq_getLast?, hlf]
    rfl
  rw [hlfd] at hleafU
  have hleafOr : ∀ lf, (c0 :: tw).getLast? = some lf →
      '-' ∉ lf.data ∨ (noDD lf.data = true ∧ lf.data.head? ≠ some '-') := by
    intro lf hlf'
    rw [hlf] at hlf'
    cases hlf'
    by_cases hd : '-' ∈ leaf.data
    · exact Or.inr ⟨(hleafU hd).2.1, (hleafU hd).2.2.1⟩
    · exact Or.inl hd
  obtain ⟨hAn, hAl⟩ := encA_good c0 tw hne0 hhid0 hmid hleafOr
  have hAlast : dw ≠ [] → (c0.data ++ encTail tw).getLast? ≠ some '-' := by
    intro hdne
    rw [hAl leaf hlf]
    by_cases hd : '-' ∈ leaf.data
    · exact (hleafU hd).2.2.2.1 hdne
    · exact getLast?_ne_dash_of_dashfree _ hd
  have hprobe' : ∀ j, j < tw.dropLast.length →
      (fun l => fs ⟨l⟩) ('/' :: interSlash (c0 :: tw.dropLast.take (j + 1))) = true := by
    intro j hj
    have hlen : tw.dropLast.length = tw.length - 1 := List.length_dropLast tw
    have h2 := hprobe (j + 2) (by simp only [List.length_cons]; omega) (by omega)
    have hmin : min (j + 1) (tw.length - 1) = j + 1 := by omega
    have htake : (c0 :: tw).take (j + 2) = c0 :: tw.dropLast.take (j + 1) := by
      rw [List.take_succ_cons, List.dropLast_eq_take, List.take_take, hmin]
    rw [htake] at h2
    exact h2
  have hleafp' : ∀ lf, (c0 :: tw).getLast? = some lf → '-' ∈ lf.data →
      (fun l => fs ⟨l⟩) ('/' :: interSlash ((c0 :: tw).dropLast
        ++ [⟨(splitDash lf.data).headD []⟩])) = false := by
    intro lf hlf' hd
    rw [hlf] at hlf'
    cases hlf'
    exact (hleafU hd).2.2.2.2
  have hc0df1 : tw = [] → '-' ∉ c0.data := by
    intro htwe hd
    rw [htwe, List.getLast?_singleton] at hlf
    cases hlf
    have := (hleafU hd).1
    rw [htwe] at this
    simp at this
  have hE : encodeChars (interSlash (c0 :: cs))
      = (c0.data ++ encTail tw)
        ++ (groupHidden dw).flatMap (fun g => '-' :: '-' :: segBody g) := by
    rw [encodeChars_interSlash c0 cs hgood]
    conv_lhs => rw [← hcs]
    rw [encTail_append, encTail_groupHidden dw hdwhead, List.append_assoc]
  have key : decodeChars (fun l => fs ⟨l⟩)
        ('-' :: encodeChars (interSlash (c0 :: cs)))
      = '/' :: interSlash (c0 :: cs) := by
    have hstrip : stripLeadingDash ('-' :: encodeChars (interSlash (c0 :: cs)))
        = encodeChars (interSlash (c0 :: cs)) := rfl
    by_cases hdwe : dw = []
    · have htweq : tw = cs := by
        rw [hdwe, List.append_nil] at hcs
        exact hcs
      have hsS : splitSeg (encodeChars (interSlash (c0 :: cs)))
          = [c0.data ++ encTail tw] := by
        rw [hE, hdwe]
        rw [show groupHidden ([] : List String) = [] by simp [groupHidden]]
        rw [List.flatMap_nil, List.append_nil]
        exact splitSeg_of_noDD _ hAn
      unfold decodeChars
      rw [hstrip, hsS]
      show hiddenAppendChars
          (resolveSegChars (fun l => fs ⟨l⟩) (c0.data ++ encTail tw)) []
        = '/' :: interSlash (c0 :: cs)
      rw [show hiddenAppendChars
            (resolveSegChars (fun l => fs ⟨l⟩) (c0.data ++ encTail tw)) []
          = resolveSegChars (fun l => fs ⟨l⟩) (c0.data ++ encTail tw) from rfl]
      rw [resolveSeg_encoded (fun l => fs ⟨l⟩) c0 tw hne0 hhid0 hmid hprobe'
        hleafp' hc0df1]
      rw [htweq]
    · have hgs : ∀ g ∈ groupHidden dw, ∃ hh plains, g = hh :: plains
          ∧ isHiddenComp hh = true
          ∧ (∀ c ∈ plains, isHiddenComp c = false)
          ∧ (∀ c ∈ g, c.data ≠ [] ∧ '-' ∉ c.data) := by
        intro g hg
        obtain ⟨hh, plains, hgeq, hhid', hpl, hsub⟩ :=
          groupHidden_props dw hdwhead g hg
        exact ⟨hh, plains, hgeq, hhid', hpl, fun c hc =>
          ⟨(hgood c (List.mem_cons_of_mem _ (hdwsub c (hsub c hc)))).1,
            hrest c (hsub c hc)⟩⟩
      have hsegGood : ∀ g ∈ groupHidden dw,
          noDD (segBody g) = true ∧ (segBody g).getLast? ≠ some '-' := by
        intro g hg
        obtain ⟨hh, plains, hgeq, hhid', hpl, hmemgood⟩ := hgs g hg
        refine segBody_good g (fun c hc => hmemgood c hc) ?_
        intro c hc
        rw [hgeq] at hc
        exact hpl c (by simpa using hc)
      have hsS : splitSeg (encodeChars (interSlash (c0 :: cs)))
          = (c0.data ++ encTail tw) :: (groupHidden dw).map segBody := by
        rw [hE]
        exact splitSeg_stream (groupHidden dw) _ hAn (hAlast hdwe) hsegGood
      unfold decodeChars
      rw [hstrip, hsS]
      show hiddenAppendChars
          (resolveSegChars (fun l => fs ⟨l⟩) (c0.data ++ encTail tw))
          ((groupHidden dw).map segBody)
        = '/' :: interSlash (c0 :: cs)
      rw [resolveSeg_encoded (fun l => fs ⟨l⟩) c0 tw hne0 hhid0 hmid hprobe'
        hleafp' hc0df1]
      rw [hiddenAppend_map_segBody (groupHidden dw)
        ('/' :: interSlash (c0 :: tw)) hgs]
      rw [slashJoin_flatten, groupHidden_join]
      rw [show ('/' :: interSlash (c0 :: tw) : List Char) ++ slashJoin dw
          = '/' :: interSlash ((c0 :: tw) ++ dw) by
        rw [interSlash_append_slashJoin dw (c0 :: tw) (by simp)]; rfl]
      rw [show (c0 :: tw) ++ dw = c0 :: cs by rw [List.cons_append, hcs]]
  show (⟨decodeChars (fun l => fs ⟨l⟩)
      ('-' :: encodeChars (interSlash (c0 :: cs)))⟩ : String)
    = pathOfComps (c0 :: cs)
  rw [key]
  rfl

/-- C5 witness: the round trip at the concrete unambiguous path
`/home/my-dir/.cfg/app` with a filesystem that rejects every probe. -/
theorem convert_dir_name_roundtrip_witness :
    Unambiguous (fun _ => false) "home" ["my-dir", ".cfg", "app"]
    ∧ convert_dir_name_to_path (fun _ => false)
        (convert_path_to_dir_name (pathOfComps ["home", "my-dir", ".cfg", "app"]))
      = pathOfComps ["home", "my-dir", ".cfg", "app"] :=
  ⟨by decide,
    convert_dir_name_roundtrip (fun _ => false) "home" ["my-dir", ".cfg", "app"]
      (by decide)⟩
